import Mathlib

/-!
Shallow embedding of the graphgen repository and a verification of the claims made by
its specification.  The embedding follows the source files graph_counts.py,
generated_graph_distr.py, nauty.py, _helpers.py and graph_generators.py.  Python
strings are modelled as lists of characters, Python dictionaries and Counter objects
as association lists, the process pool as a sequential fold over worker indices
(gather order in the source is the worker index order, and workers share no state),
and the global random generator as an explicit state threaded through the calls.
-/

namespace GraphGen

/-!
### Python numeric semantics

Python 3 true division of two ints yields an IEEE-754 binary64 float: the rational
quotient correctly rounded to 53 significant bits, round half to even.  The source
line graph_counts.py:39 computes each worker assignment as
int(num_graphs / num_processes), so the embedding must use this rounding rather than
floor division.  Floor division and the modulo operator of Python (used by divmod in
graph_counts.py:78 and by the remainder at line 41) agree with Int.ediv and Int.emod.
-/

/-- Round a rational to the nearest integer, ties to even (the IEEE-754 default
rounding used by binary64 arithmetic). -/
def rhe (x : ℚ) : ℤ :=
  if x - ⌊x⌋ < 1/2 then ⌊x⌋
  else if 1/2 < x - ⌊x⌋ then ⌊x⌋ + 1
  else if Even ⌊x⌋ then ⌊x⌋ else ⌊x⌋ + 1

theorem rhe_intCast (n : ℤ) : rhe (n : ℚ) = n := by
  unfold rhe
  simp

theorem floor_le_rhe (x : ℚ) : ⌊x⌋ ≤ rhe x := by
  unfold rhe
  split
  · exact le_refl _
  · split
    · omega
    · split
      · exact le_refl _
      · omega

theorem rhe_le (x : ℚ) : (rhe x : ℚ) ≤ x + 1/2 := by
  have hfl : (⌊x⌋ : ℚ) ≤ x := Int.floor_le x
  unfold rhe
  split
  · linarith
  · rename_i h1
    push_neg at h1
    split
    · rename_i h2
      push_cast
      linarith
    · split
      · linarith
      · rename_i h2 h3
        push_neg at h2
        push_cast
        linarith

/-- Base-2 logarithm of a natural number by structural recursion on a fuel bound,
so that evaluation never leaves the structurally recursive fragment. -/
def natLog2Fuel : ℕ → ℕ → ℕ
  | 0, _ => 0
  | fuel + 1, n => if n < 2 then 0 else natLog2Fuel fuel (n / 2) + 1

/-- Base-2 logarithm (rounded down) of a natural number. -/
def natLog2 (n : ℕ) : ℕ :=
  natLog2Fuel n n

/-- Base-2 logarithm rounded up, by structural recursion on a fuel bound. -/
def natClog2Fuel : ℕ → ℕ → ℕ
  | 0, _ => 0
  | fuel + 1, n => if n ≤ 1 then 0 else natClog2Fuel fuel ((n + 1) / 2) + 1

/-- Base-2 logarithm rounded up of a natural number. -/
def natClog2 (n : ℕ) : ℕ :=
  natClog2Fuel n n

/-- The base-2 logarithm, rounded down, of a positive rational: the unique e with
2 ^ e ≤ q < 2 ^ (e + 1).  For q at least 1 it is the logarithm of the floor; for
q below 1 it is minus the rounded-up logarithm of the ceiling of the inverse. -/
def qlog2 (q : ℚ) : ℤ :=
  if 1 ≤ q then (natLog2 ⌊q⌋₊ : ℤ) else -(natClog2 ⌈q⁻¹⌉₊ : ℤ)

/-- The binary64 value of the Python expression a / b for positive ints a and b: the
rational quotient rounded to 53 significant bits, round half to even.  The exponent
limits of binary64 are not modelled: Python raises OverflowError for quotients that
round to 2 ^ 1024 or above, and spacing becomes fixed below 2 ^ (-1022); no input
appearing in any theorem below reaches either regime. -/
def pyDivQ (a b : ℕ) : ℚ :=
  (rhe ((a : ℚ) / (b : ℚ) / 2 ^ (qlog2 ((a : ℚ) / (b : ℚ)) - 52)) : ℚ)
    * 2 ^ (qlog2 ((a : ℚ) / (b : ℚ)) - 52)

/-- The Python expression int(a / b) for nonnegative ints: true division to binary64,
then truncation toward zero (which is the floor, the value being nonnegative).
Python raises ZeroDivisionError when b = 0; the orchestration code divides only by a
worker count that the Pool constructor has already checked to be at least 1, so the
b = 0 branch returns 0 and is never reached by a theorem. -/
def pyIntDivNat (a b : ℕ) : ℤ :=
  if a = 0 ∨ b = 0 then 0 else ⌊pyDivQ a b⌋

/-- The Python expression int(a / b) for an int numerator of either sign and a
positive denominator: int truncates toward zero, and binary64 rounding commutes with
negation. -/
def pyIntDiv (a b : ℤ) : ℤ :=
  if 0 ≤ a then pyIntDivNat a.toNat b.natAbs else -pyIntDivNat (-a).toNat b.natAbs

theorem natLog2Fuel_eq (fuel : ℕ) : ∀ n e : ℕ, n ≤ fuel → 2 ^ e ≤ n → n < 2 ^ (e + 1) →
    natLog2Fuel fuel n = e := by
  induction fuel with
  | zero =>
    intro n e hle hlow _
    have : 0 < 2 ^ e := Nat.pos_pow_of_pos e (by norm_num)
    omega
  | succ f ih =>
    intro n e hle hlow hhigh
    rw [natLog2Fuel]
    by_cases hn : n < 2
    · rw [if_pos hn]
      cases e with
      | zero => rfl
      | succ k =>
        have : 2 ≤ 2 ^ (k + 1) := by
          calc 2 = 2 ^ 1 := by norm_num
          _ ≤ 2 ^ (k + 1) := Nat.pow_le_pow_right (by norm_num) (by omega)
        omega
    · rw [if_neg hn]
      push_neg at hn
      cases e with
      | zero =>
        have : 2 ^ (0 + 1) = 2 := by norm_num
        omega
      | succ k =>
        have hlow2 : 2 ^ k ≤ n / 2 := by
          have h := Nat.div_le_div_right (c := 2) hlow
          rw [Nat.pow_succ, Nat.mul_div_cancel _ (by norm_num)] at h
          exact h
        have hhigh2 : n / 2 < 2 ^ (k + 1) := by
          rw [Nat.div_lt_iff_lt_mul (by norm_num)]
          rw [Nat.pow_succ] at hhigh
          exact hhigh
        rw [ih (n / 2) k (by omega) hlow2 hhigh2]

/-- The fueled base-2 logarithm satisfies the binade characterization. -/
theorem natLog2_eq (n e : ℕ) (hlow : 2 ^ e ≤ n) (hhigh : n < 2 ^ (e + 1)) :
    natLog2 n = e :=
  natLog2Fuel_eq n n e (le_refl n) hlow hhigh

/-- The binade characterization of qlog2 for a nonnegative exponent. -/
theorem log2_eq_of {q : ℚ} {e : ℤ} (he : 0 ≤ e) (h1 : (2 : ℚ) ^ e ≤ q)
    (h2 : q < (2 : ℚ) ^ (e + 1)) : qlog2 q = e := by
  obtain ⟨en, rfl⟩ := Int.eq_ofNat_of_zero_le he
  have hcast1 : (2 : ℚ) ^ (en : ℤ) = ((2 ^ en : ℕ) : ℚ) := by
    rw [zpow_natCast]
    push_cast
    ring
  have hcast2 : (2 : ℚ) ^ ((en : ℤ) + 1) = ((2 ^ (en + 1) : ℕ) : ℚ) := by
    rw [show ((en : ℤ) + 1) = ((en + 1 : ℕ) : ℤ) by push_cast; ring, zpow_natCast]
    push_cast
    ring
  have hq1 : (1 : ℚ) ≤ q := by
    refine le_trans ?_ h1
    rw [hcast1]
    exact_mod_cast Nat.one_le_two_pow
  have h0 : (0 : ℚ) ≤ q := le_trans (by norm_num) hq1
  have hfloor_low : 2 ^ en ≤ ⌊q⌋₊ := by
    rw [Nat.le_floor_iff h0]
    rw [hcast1] at h1
    exact h1
  have hfloor_high : ⌊q⌋₊ < 2 ^ (en + 1) := by
    rw [Nat.floor_lt h0]
    rw [hcast2] at h2
    exact_mod_cast h2
  unfold qlog2
  rw [if_pos hq1, natLog2_eq ⌊q⌋₊ en hfloor_low hfloor_high]

/-- Evaluation of pyDivQ from the binade of the quotient and the value of the
rounding step. -/
theorem pyDivQ_eval (a b : ℕ) (e m : ℤ) (he : 0 ≤ e)
    (h1 : (2 : ℚ) ^ e ≤ (a : ℚ) / b) (h2 : (a : ℚ) / b < (2 : ℚ) ^ (e + 1))
    (hm : rhe ((a : ℚ) / b / 2 ^ (e - 52)) = m) :
    pyDivQ a b = (m : ℚ) * 2 ^ (e - 52) := by
  unfold pyDivQ
  rw [log2_eq_of he h1 h2, hm]

/-- A quotient that is a dyadic rational with at most 53 significant bits is
represented exactly. -/
theorem pyDivQ_exact (a b : ℕ) (e m : ℤ) (he : 0 ≤ e)
    (h1 : (2 : ℚ) ^ e ≤ (a : ℚ) / b) (h2 : (a : ℚ) / b < (2 : ℚ) ^ (e + 1))
    (hq : (a : ℚ) / b = (m : ℚ) * 2 ^ (e - 52)) :
    pyDivQ a b = (a : ℚ) / b := by
  have hz : ((2 : ℚ) ^ (e - 52)) ≠ 0 := zpow_ne_zero _ (by norm_num)
  have hdiv : (a : ℚ) / b / 2 ^ (e - 52) = (m : ℚ) := by
    rw [hq, mul_div_assoc, div_self hz, mul_one]
  rw [pyDivQ_eval a b e m he h1 h2 (by rw [hdiv]; exact rhe_intCast m), ← hq]

/-- An integer quotient of magnitude at most 2 ^ 53 is represented exactly. -/
theorem pyDivQ_intValue (a b k : ℕ) (hk : 0 < k) (hk53 : k ≤ 2 ^ 53)
    (hq : (a : ℚ) / b = (k : ℚ)) : pyDivQ a b = (k : ℚ) := by
  set n : ℕ := Nat.log 2 k with hn
  have hlow : 2 ^ n ≤ k := Nat.pow_log_le_self 2 (by omega)
  have hhigh : k < 2 ^ (n + 1) := Nat.lt_pow_succ_log_self (by norm_num) k
  have hn53 : n ≤ 53 := by
    by_contra hcon
    push_neg at hcon
    have : (2 : ℕ) ^ 54 ≤ 2 ^ n := Nat.pow_le_pow_right (by norm_num) (by omega)
    have : (2 : ℕ) ^ 54 ≤ k := le_trans this hlow
    norm_num at this
    omega
  have h1 : (2 : ℚ) ^ (n : ℤ) ≤ (a : ℚ) / b := by
    rw [hq]
    rw [zpow_natCast]
    exact_mod_cast hlow
  have h2 : (a : ℚ) / b < (2 : ℚ) ^ ((n : ℤ) + 1) := by
    rw [hq]
    have : ((n : ℤ) + 1) = ((n + 1 : ℕ) : ℤ) := by push_cast; ring
    rw [this, zpow_natCast]
    exact_mod_cast hhigh
  rcases Nat.lt_or_ge n 53 with hcase | hcase
  · -- n is at most 52, so k times 2 ^ (52 - n) is an integer mantissa
    have hrep : (a : ℚ) / b = ((k * 2 ^ (52 - n) : ℕ) : ℚ) * 2 ^ ((n : ℤ) - 52) := by
      rw [hq]
      push_cast
      rw [mul_assoc, ← zpow_natCast (2 : ℚ) (52 - n), ← zpow_add₀ (by norm_num : (2 : ℚ) ≠ 0)]
      have : ((52 - n : ℕ) : ℤ) + ((n : ℤ) - 52) = 0 := by omega
      rw [this, zpow_zero, mul_one]
    rw [← hq]
    exact pyDivQ_exact a b (n : ℤ) ((k * 2 ^ (52 - n) : ℕ) : ℤ) (Int.natCast_nonneg n) h1 h2 (by exact_mod_cast hrep)
  · -- n = 53 forces k = 2 ^ 53, a power of two with even mantissa
    have hn' : n = 53 := by omega
    have hk' : k = 2 ^ 53 := by
      rw [hn'] at hlow
      omega
    have hrep : (a : ℚ) / b = ((2 ^ 52 : ℤ) : ℚ) * 2 ^ ((n : ℤ) - 52) := by
      rw [hq, hk', hn']
      norm_num
    rw [← hq]
    exact pyDivQ_exact a b (n : ℤ) (2 ^ 52) (Int.natCast_nonneg n) h1 h2 hrep

/-- The rounding of the quotient 2 ^ 53 + 1: an exact tie between 2 ^ 53 and
2 ^ 53 + 2, resolved toward the even mantissa, that is toward 2 ^ 53. -/
theorem pyDivQ_tieValue (a b : ℕ) (hq : (a : ℚ) / b = 2 ^ 53 + 1) :
    pyDivQ a b = 2 ^ 53 := by
  have h1 : (2 : ℚ) ^ (53 : ℤ) ≤ (a : ℚ) / b := by rw [hq]; norm_num
  have h2 : (a : ℚ) / b < (2 : ℚ) ^ ((53 : ℤ) + 1) := by rw [hq]; norm_num
  have hdiv : (a : ℚ) / b / 2 ^ ((53 : ℤ) - 52) = 2 ^ 52 + 1/2 := by
    rw [hq]
    norm_num
  have hfloor : ⌊(2 ^ 52 + 1/2 : ℚ)⌋ = 2 ^ 52 := by
    rw [Int.floor_eq_iff]
    constructor
    · push_cast
      norm_num
    · push_cast
      norm_num
  have hm : rhe ((a : ℚ) / b / 2 ^ ((53 : ℤ) - 52)) = 2 ^ 52 := by
    rw [hdiv]
    unfold rhe
    rw [hfloor]
    have hfrac : (2 ^ 52 + 1/2 : ℚ) - ((2 ^ 52 : ℤ) : ℚ) = 1/2 := by
      push_cast
      ring
    rw [hfrac]
    norm_num
    exact ⟨2 ^ 51, by norm_num⟩
  rw [pyDivQ_eval a b 53 (2 ^ 52) (by norm_num) h1 h2 hm]
  norm_num

theorem pyIntDivNat_intValue (a b k : ℕ) (hb : 0 < b) (hk : 0 < k) (hk53 : k ≤ 2 ^ 53)
    (hq : (a : ℚ) / b = (k : ℚ)) : pyIntDivNat a b = (k : ℤ) := by
  have ha : a ≠ 0 := by
    intro h
    subst h
    rw [Nat.cast_zero, zero_div] at hq
    have hkpos : (0 : ℚ) < (k : ℚ) := by exact_mod_cast hk
    rw [← hq] at hkpos
    exact lt_irrefl _ hkpos
  unfold pyIntDivNat
  rw [if_neg (by omega), pyDivQ_intValue a b k hk hk53 hq]
  exact Int.floor_intCast k

theorem pyIntDivNat_tie (a b : ℕ) (hq : (a : ℚ) / b = 2 ^ 53 + 1) :
    pyIntDivNat a b = 2 ^ 53 := by
  have hpos : (0 : ℚ) < 2 ^ 53 + 1 := by positivity
  have ha : a ≠ 0 := by
    intro h
    subst h
    rw [Nat.cast_zero, zero_div] at hq
    rw [← hq] at hpos
    exact lt_irrefl _ hpos
  have hb : b ≠ 0 := by
    intro h
    subst h
    rw [Nat.cast_zero, div_zero] at hq
    rw [← hq] at hpos
    exact lt_irrefl _ hpos
  unfold pyIntDivNat
  rw [if_neg (by omega), pyDivQ_tieValue a b hq]
  rw [show ((2 : ℚ) ^ 53) = ((2 ^ 53 : ℤ) : ℚ) by push_cast; ring]
  exact Int.floor_intCast _

/-!
### Counter objects

The frequency tables of graph_counts.py are collections.Counter objects.  A Counter
is modelled as an association list in insertion order: a lookup of an absent key
yields 0 (Counter semantics), an update rewrites the first entry holding the key and
keeps its position, an insertion appends at the end.  Counter addition, used at
graph_counts.py:50 and 95, follows the CPython implementation: it walks the left
operand keeping keywise sums that are positive, then appends the keys only present
in the right operand whose count is positive.
-/

/-- A Counter as an association list in insertion order. -/
abbrev Counter (K : Type) := List (K × ℕ)

/-- Membership test of a key (the Python `in` on a dict). -/
def chas {K : Type} [DecidableEq K] : Counter K → K → Bool
  | [], _ => false
  | p :: t, k => if p.1 = k then true else chas t k

/-- Lookup with default 0 (Counter indexing and dict.get(key, 0)). -/
def cget {K : Type} [DecidableEq K] : Counter K → K → ℕ
  | [], _ => 0
  | p :: t, k => if p.1 = k then p.2 else cget t k

/-- Assignment d[k] = v: rewrite the first entry holding the key in place, else
append at the end (Python dicts preserve insertion order). -/
def cset {K : Type} [DecidableEq K] : Counter K → K → ℕ → Counter K
  | [], k, v => [(k, v)]
  | p :: t, k, v => if p.1 = k then (p.1, v) :: t else p :: cset t k v

/-- Counter(iterable): count occurrences, keys in first-occurrence order
(graph_counts.py:92, Counter(canonized_graphs)). -/
def tally {K : Type} [DecidableEq K] (l : List K) : Counter K :=
  l.foldl (fun c x => cset c x (cget c x + 1)) []

/-- Counter addition (the + in graph_counts.py:50 and 95): keywise sums over the
left operand keeping positive results, then the positive counts of keys only in the
right operand, in that order, as in the CPython source of Counter. -/
def counterAdd {K : Type} [DecidableEq K] (a b : Counter K) : Counter K :=
  ((a.filter fun p => decide (0 < p.2 + cget b p.1)).map fun p => (p.1, p.2 + cget b p.1))
    ++ (b.filter fun p => !chas a p.1 && decide (0 < p.2))

/-- Sum of all stored counts: sum(table.values()). -/
def sumValues {K : Type} (c : Counter K) : ℕ :=
  (c.map Prod.snd).sum

/-- The zero-fill loop of generated_graph_distr.py:44-45: for every key of the
all-graphs oracle, set it to its current count, defaulting to 0. -/
def zeroFill {K : Type} [DecidableEq K] (c : Counter K) (univ : List K) : Counter K :=
  univ.foldl (fun d g => cset d g (cget d g)) c

/-- The keys of the table are pairwise distinct, as in a Python dict. -/
def KeyNodup {K : Type} (c : Counter K) : Prop :=
  (c.map Prod.fst).Nodup

/-- Equality of Python dicts: same key set and the same count at every key
(insertion order is ignored by ==). -/
def DictEq {K : Type} [DecidableEq K] (a b : Counter K) : Prop :=
  (∀ p ∈ a, chas b p.1 = true) ∧ (∀ p ∈ b, chas a p.1 = true)
    ∧ (∀ p ∈ a, cget a p.1 = cget b p.1)

theorem chas_iff_mem {K : Type} [DecidableEq K] (c : Counter K) (k : K) :
    chas c k = true ↔ k ∈ c.map Prod.fst := by
  induction c with
  | nil => simp [chas]
  | cons p t ih =>
    by_cases h : p.1 = k
    · simp [chas, h]
    · rw [chas, if_neg h, ih, List.map_cons, List.mem_cons]
      constructor
      · exact Or.inr
      · rintro (he | hm)
        · exact absurd he.symm h
        · exact hm

theorem cget_eq_zero_of_chas_false {K : Type} [DecidableEq K] (c : Counter K) (k : K)
    (h : chas c k = false) : cget c k = 0 := by
  induction c with
  | nil => rfl
  | cons p t ih =>
    by_cases hp : p.1 = k
    · rw [chas, if_pos hp] at h
      exact absurd h (by simp)
    · rw [chas, if_neg hp] at h
      rw [cget, if_neg hp]
      exact ih h

theorem chas_append {K : Type} [DecidableEq K] (l1 l2 : Counter K) (k : K) :
    chas (l1 ++ l2) k = (chas l1 k || chas l2 k) := by
  induction l1 with
  | nil => simp [chas]
  | cons p t ih =>
    rw [List.cons_append]
    by_cases hp : p.1 = k
    · rw [chas, if_pos hp, chas, if_pos hp]
      simp
    · rw [chas, if_neg hp, chas, if_neg hp, ih]

theorem cget_append {K : Type} [DecidableEq K] (l1 l2 : Counter K) (k : K) :
    cget (l1 ++ l2) k = if chas l1 k then cget l1 k else cget l2 k := by
  induction l1 with
  | nil => simp [chas, cget]
  | cons p t ih =>
    rw [List.cons_append]
    by_cases hp : p.1 = k
    · rw [cget, if_pos hp, chas, if_pos hp, if_pos rfl, cget, if_pos hp]
    · rw [cget, if_neg hp, chas, if_neg hp, ih]
      by_cases ht : chas t k
      · rw [if_pos ht, if_pos ht, cget, if_neg hp]
      · rw [if_neg ht, if_neg ht]

theorem cget_cset {K : Type} [DecidableEq K] (c : Counter K) (k k' : K) (v : ℕ) :
    cget (cset c k v) k' = if k = k' then v else cget c k' := by
  induction c with
  | nil =>
    by_cases h : k = k'
    · simp [cset, cget, h]
    · simp [cset, cget, h]
  | cons p t ih =>
    by_cases hp : p.1 = k
    · rw [cset, if_pos hp]
      by_cases h : k = k'
      · subst h
        rw [cget, if_pos hp, if_pos rfl]
      · have hp' : ¬ p.1 = k' := by rw [hp]; exact h
        rw [cget, if_neg hp', if_neg h, cget, if_neg hp']
    · rw [cset, if_neg hp]
      by_cases h : p.1 = k'
      · have hk : ¬ k = k' := by
          intro he
          apply hp
          rw [h]
          exact he.symm
        rw [cget, if_pos h, cget, if_pos h, if_neg hk]
      · rw [cget, if_neg h, cget, if_neg h, ih]

theorem chas_cset {K : Type} [DecidableEq K] (c : Counter K) (k k' : K) (v : ℕ) :
    chas (cset c k v) k' = (chas c k' || decide (k = k')) := by
  induction c with
  | nil =>
    by_cases h : k = k'
    · simp [cset, chas, h]
    · simp [cset, chas, h]
  | cons p t ih =>
    by_cases hp : p.1 = k
    · rw [cset, if_pos hp]
      by_cases h : k = k'
      · subst h
        rw [chas, if_pos hp, chas, if_pos hp]
        simp
      · have hp' : ¬ p.1 = k' := by rw [hp]; exact h
        rw [chas, if_neg hp', chas, if_neg hp']
        simp [h]
    · rw [cset, if_neg hp]
      by_cases h : p.1 = k'
      · rw [chas, if_pos h, chas, if_pos h]
        simp
      · rw [chas, if_neg h, chas, if_neg h, ih]

theorem keys_cset_of_chas {K : Type} [DecidableEq K] (c : Counter K) (k : K) (v : ℕ)
    (h : chas c k = true) : (cset c k v).map Prod.fst = c.map Prod.fst := by
  induction c with
  | nil => simp [chas] at h
  | cons p t ih =>
    by_cases hp : p.1 = k
    · rw [cset, if_pos hp]
      simp [hp]
    · rw [chas, if_neg hp] at h
      rw [cset, if_neg hp]
      simp [ih h]

theorem keys_cset_of_chas_false {K : Type} [DecidableEq K] (c : Counter K) (k : K) (v : ℕ)
    (h : chas c k = false) : (cset c k v).map Prod.fst = c.map Prod.fst ++ [k] := by
  induction c with
  | nil => simp [cset]
  | cons p t ih =>
    by_cases hp : p.1 = k
    · rw [chas, if_pos hp] at h
      exact absurd h (by simp)
    · rw [chas, if_neg hp] at h
      rw [cset, if_neg hp]
      simp [ih h]

theorem keyNodup_cset {K : Type} [DecidableEq K] (c : Counter K) (k : K) (v : ℕ)
    (h : KeyNodup c) : KeyNodup (cset c k v) := by
  unfold KeyNodup
  cases hc : chas c k with
  | true => rw [keys_cset_of_chas c k v hc]; exact h
  | false =>
    rw [keys_cset_of_chas_false c k v hc]
    rw [List.nodup_append]
    refine ⟨h, List.nodup_singleton k, ?_⟩
    intro x hx hk
    rw [List.mem_singleton] at hk
    subst hk
    rw [← chas_iff_mem] at hx
    rw [hx] at hc
    exact Bool.true_eq_false.mp hc

theorem sumValues_cset_of_chas {K : Type} [DecidableEq K] (c : Counter K) (k : K) (m : ℕ)
    (h : chas c k = true) : sumValues (cset c k (cget c k + m)) = sumValues c + m := by
  induction c with
  | nil => simp [chas] at h
  | cons p t ih =>
    by_cases hp : p.1 = k
    · rw [cset, if_pos hp, cget, if_pos hp]
      simp [sumValues]
      omega
    · rw [chas, if_neg hp] at h
      rw [cset, if_neg hp, cget, if_neg hp]
      simp only [sumValues, List.map_cons, List.sum_cons] at ih ⊢
      rw [ih h]
      omega

theorem sumValues_cset_of_chas_false {K : Type} [DecidableEq K] (c : Counter K) (k : K) (v : ℕ)
    (h : chas c k = false) : sumValues (cset c k v) = sumValues c + v := by
  induction c with
  | nil => simp [cset, sumValues]
  | cons p t ih =>
    by_cases hp : p.1 = k
    · rw [chas, if_pos hp] at h
      exact absurd h (by simp)
    · rw [chas, if_neg hp] at h
      rw [cset, if_neg hp]
      simp only [sumValues, List.map_cons, List.sum_cons] at ih ⊢
      rw [ih h]
      omega

theorem chas_addLeft {K : Type} [DecidableEq K] (a b : Counter K) (k : K) (hA : KeyNodup a) :
    chas ((a.filter fun p => decide (0 < p.2 + cget b p.1)).map
        fun p => (p.1, p.2 + cget b p.1)) k
      = (chas a k && decide (0 < cget a k + cget b k)) := by
  induction a with
  | nil => simp [chas]
  | cons p t ih =>
    rw [KeyNodup, List.map_cons, List.nodup_cons] at hA
    obtain ⟨hp1, ht⟩ := hA
    by_cases hp : p.1 = k
    · subst hp
      rw [chas, if_pos rfl, cget, if_pos rfl]
      by_cases hpos : 0 < p.2 + cget b p.1
      · rw [List.filter_cons_of_pos (by simpa using hpos), List.map_cons]
        rw [chas, if_pos rfl]
        simp [hpos]
      · rw [List.filter_cons_of_neg (by simpa using hpos), ih ht]
        have hct : chas t p.1 = false := by
          cases hc : chas t p.1 with
          | false => rfl
          | true => exact absurd ((chas_iff_mem t p.1).1 hc) hp1
        rw [hct]
        simp [hpos]
    · rw [chas, if_neg hp, cget, if_neg hp]
      by_cases hpos : 0 < p.2 + cget b p.1
      · rw [List.filter_cons_of_pos (by simpa using hpos), List.map_cons, chas, if_neg hp]
        exact ih ht
      · rw [List.filter_cons_of_neg (by simpa using hpos)]
        exact ih ht

theorem cget_addLeft {K : Type} [DecidableEq K] (a b : Counter K) (k : K) (hA : KeyNodup a) :
    cget ((a.filter fun p => decide (0 < p.2 + cget b p.1)).map
        fun p => (p.1, p.2 + cget b p.1)) k
      = if chas a k && decide (0 < cget a k + cget b k) then cget a k + cget b k else 0 := by
  induction a with
  | nil => simp [chas, cget]
  | cons p t ih =>
    rw [KeyNodup, List.map_cons, List.nodup_cons] at hA
    obtain ⟨hp1, ht⟩ := hA
    by_cases hp : p.1 = k
    · subst hp
      rw [chas, if_pos rfl, cget, if_pos rfl]
      by_cases hpos : 0 < p.2 + cget b p.1
      · rw [List.filter_cons_of_pos (by simpa using hpos), List.map_cons]
        rw [cget, if_pos rfl]
        simp [hpos]
      · rw [List.filter_cons_of_neg (by simpa using hpos), ih ht]
        have hct : chas t p.1 = false := by
          cases hc : chas t p.1 with
          | false => rfl
          | true => exact absurd ((chas_iff_mem t p.1).1 hc) hp1
        rw [hct]
        simp [hpos]
    · rw [chas, if_neg hp, cget, if_neg hp]
      by_cases hpos : 0 < p.2 + cget b p.1
      · rw [List.filter_cons_of_pos (by simpa using hpos), List.map_cons, cget, if_neg hp]
        exact ih ht
      · rw [List.filter_cons_of_neg (by simpa using hpos)]
        exact ih ht

theorem chas_addRight {K : Type} [DecidableEq K] (a b : Counter K) (k : K) (hB : KeyNodup b) :
    chas (b.filter fun p => !chas a p.1 && decide (0 < p.2)) k
      = (chas b k && !chas a k && decide (0 < cget b k)) := by
  induction b with
  | nil => simp [chas]
  | cons q s ih =>
    rw [KeyNodup, List.map_cons, List.nodup_cons] at hB
    obtain ⟨hq1, hs⟩ := hB
    by_cases hq : q.1 = k
    · subst hq
      rw [chas, if_pos rfl, cget, if_pos rfl]
      by_cases hcond : (!chas a q.1 && decide (0 < q.2)) = true
      · rw [List.filter_cons, if_pos hcond, chas, if_pos rfl]
        simp only [Bool.and_eq_true, Bool.not_eq_true', decide_eq_true_eq] at hcond
        simp [hcond.1, hcond.2]
      · rw [List.filter_cons, if_neg hcond, ih hs]
        have hcs : chas s q.1 = false := by
          cases hc : chas s q.1 with
          | false => rfl
          | true => exact absurd ((chas_iff_mem s q.1).1 hc) hq1
        rw [hcs]
        simp only [Bool.and_eq_true, Bool.not_eq_true', decide_eq_true_eq, not_and] at hcond
        simp only [Bool.false_and, Bool.true_and]
        cases hca : chas a q.1 with
        | true => simp
        | false =>
          have : ¬ 0 < q.2 := hcond hca
          simp [this]
    · rw [chas, if_neg hq, cget, if_neg hq]
      by_cases hcond : (!chas a q.1 && decide (0 < q.2)) = true
      · rw [List.filter_cons, if_pos hcond, chas, if_neg hq]
        exact ih hs
      · rw [List.filter_cons, if_neg hcond]
        exact ih hs

theorem cget_addRight {K : Type} [DecidableEq K] (a b : Counter K) (k : K) (hB : KeyNodup b) :
    cget (b.filter fun p => !chas a p.1 && decide (0 < p.2)) k
      = if chas b k && !chas a k && decide (0 < cget b k) then cget b k else 0 := by
  induction b with
  | nil => simp [chas, cget]
  | cons q s ih =>
    rw [KeyNodup, List.map_cons, List.nodup_cons] at hB
    obtain ⟨hq1, hs⟩ := hB
    by_cases hq : q.1 = k
    · subst hq
      rw [chas, if_pos rfl, cget, if_pos rfl]
      by_cases hcond : (!chas a q.1 && decide (0 < q.2)) = true
      · rw [List.filter_cons, if_pos hcond, cget, if_pos rfl]
        simp only [Bool.and_eq_true, Bool.not_eq_true', decide_eq_true_eq] at hcond
        simp [hcond.1, hcond.2]
      · rw [List.filter_cons, if_neg hcond, ih hs]
        have hcs : chas s q.1 = false := by
          cases hc : chas s q.1 with
          | false => rfl
          | true => exact absurd ((chas_iff_mem s q.1).1 hc) hq1
        rw [hcs]
        simp only [Bool.and_eq_true, Bool.not_eq_true', decide_eq_true_eq, not_and] at hcond
        simp only [Bool.false_and, Bool.true_and]
        cases hca : chas a q.1 with
        | true => simp
        | false =>
          have : ¬ 0 < q.2 := hcond hca
          simp [this]
    · rw [chas, if_neg hq, cget, if_neg hq]
      by_cases hcond : (!chas a q.1 && decide (0 < q.2)) = true
      · rw [List.filter_cons, if_pos hcond, cget, if_neg hq]
        exact ih hs
      · rw [List.filter_cons, if_neg hcond]
        exact ih hs

/-- Counter addition is keywise addition of counts. -/
theorem cget_counterAdd {K : Type} [DecidableEq K] (a b : Counter K) (k : K)
    (hA : KeyNodup a) (hB : KeyNodup b) :
    cget (counterAdd a b) k = cget a k + cget b k := by
  unfold counterAdd
  rw [cget_append, chas_addLeft a b k hA, cget_addLeft a b k hA, cget_addRight a b k hB]
  cases hca : chas a k with
  | true =>
    by_cases hpos : 0 < cget a k + cget b k
    · simp [hpos]
    · simp [hpos]
      omega
  | false =>
    have h0 : cget a k = 0 := cget_eq_zero_of_chas_false a k hca
    cases hcb : chas b k with
    | true =>
      by_cases hpos : 0 < cget b k
      · simp [h0, hpos]
      · simp [h0, hpos]
        omega
    | false =>
      have h0b : cget b k = 0 := cget_eq_zero_of_chas_false b k hcb
      simp [h0, h0b]

/-- A key is present in a Counter sum exactly when it is present in one of the
operands and the keywise sum is positive. -/
theorem chas_counterAdd {K : Type} [DecidableEq K] (a b : Counter K) (k : K)
    (hA : KeyNodup a) (hB : KeyNodup b) :
    chas (counterAdd a b) k
      = ((chas a k || chas b k) && decide (0 < cget a k + cget b k)) := by
  unfold counterAdd
  rw [chas_append, chas_addLeft a b k hA, chas_addRight a b k hB]
  cases hca : chas a k with
  | true => simp
  | false =>
    have h0 : cget a k = 0 := cget_eq_zero_of_chas_false a k hca
    simp [h0]

theorem keyNodup_counterAdd {K : Type} [DecidableEq K] (a b : Counter K)
    (hA : KeyNodup a) (hB : KeyNodup b) : KeyNodup (counterAdd a b) := by
  unfold KeyNodup counterAdd
  rw [List.map_append]
  have hkeys1 : ((a.filter fun p => decide (0 < p.2 + cget b p.1)).map
      (fun p => (p.1, p.2 + cget b p.1))).map Prod.fst
      = (a.filter fun p => decide (0 < p.2 + cget b p.1)).map Prod.fst := by
    rw [List.map_map]
    rfl
  have hsub1 : ((a.filter fun p => decide (0 < p.2 + cget b p.1)).map Prod.fst).Sublist
      (a.map Prod.fst) := (List.filter_sublist a).map Prod.fst
  have hsub2 : ((b.filter fun p => !chas a p.1 && decide (0 < p.2)).map Prod.fst).Sublist
      (b.map Prod.fst) := (List.filter_sublist b).map Prod.fst
  rw [List.nodup_append, hkeys1]
  refine ⟨hA.sublist hsub1, hB.sublist hsub2, ?_⟩
  intro x hx1 hx2
  have hx1' : chas a x = true := by
    rw [chas_iff_mem]
    exact (hsub1.subset hx1)
  have hx2' : x ∈ (b.filter fun p => !chas a p.1 && decide (0 < p.2)).map Prod.fst := hx2
  rw [List.mem_map] at hx2'
  obtain ⟨p, hpmem, hpeq⟩ := hx2'
  rw [List.mem_filter] at hpmem
  have := hpmem.2
  rw [hpeq] at this
  rw [hx1'] at this
  simp at this

theorem sumValues_append {K : Type} (l1 l2 : Counter K) :
    sumValues (l1 ++ l2) = sumValues l1 + sumValues l2 := by
  unfold sumValues
  rw [List.map_append, List.sum_append]

theorem sumValues_filter_key {K : Type} [DecidableEq K] (b : Counter K) (k : K)
    (hB : KeyNodup b) : sumValues (b.filter fun q => decide (q.1 = k)) = cget b k := by
  induction b with
  | nil => simp [sumValues, cget]
  | cons q s ih =>
    rw [KeyNodup, List.map_cons, List.nodup_cons] at hB
    obtain ⟨hq1, hs⟩ := hB
    by_cases hq : q.1 = k
    · rw [List.filter_cons, if_pos (by simpa using hq), cget, if_pos hq]
      have hnone : s.filter (fun q => decide (q.1 = k)) = [] := by
        rw [List.filter_eq_nil_iff]
        intro p hp hc
        rw [decide_eq_true_eq] at hc
        apply hq1
        have hmem : p.1 ∈ List.map Prod.fst s := List.mem_map_of_mem Prod.fst hp
        rw [hc, ← hq] at hmem
        exact hmem
      rw [hnone]
      simp [sumValues]
    · rw [List.filter_cons, if_neg (by simpa using hq), cget, if_neg hq]
      exact ih hs

theorem sumValues_filter_dropZeros {K : Type} (b : Counter K) (f : K × ℕ → Bool) :
    sumValues (b.filter fun q => f q && decide (0 < q.2))
      = sumValues (b.filter fun q => f q) := by
  induction b with
  | nil => rfl
  | cons q s ih =>
    by_cases hf : f q = true
    · by_cases hv : 0 < q.2
      · rw [List.filter_cons, if_pos (by simp [hf, hv]), List.filter_cons, if_pos hf]
        simp only [sumValues, List.map_cons, List.sum_cons] at ih ⊢
        omega
      · have hv0 : q.2 = 0 := by omega
        rw [List.filter_cons, if_neg (by simp [hf, hv]), List.filter_cons, if_pos hf]
        simp only [sumValues, List.map_cons, List.sum_cons] at ih ⊢
        omega
    · rw [List.filter_cons, if_neg (by simp [hf]), List.filter_cons, if_neg hf]
      exact ih

theorem sumValues_addLeft {K : Type} [DecidableEq K] (a b : Counter K) :
    sumValues ((a.filter fun p => decide (0 < p.2 + cget b p.1)).map
        fun p => (p.1, p.2 + cget b p.1))
      = sumValues a + (a.map fun p => cget b p.1).sum := by
  induction a with
  | nil => rfl
  | cons p t ih =>
    by_cases hpos : 0 < p.2 + cget b p.1
    · rw [List.filter_cons, if_pos (by simpa using hpos), List.map_cons]
      simp only [sumValues, List.map_cons, List.sum_cons] at ih ⊢
      omega
    · rw [List.filter_cons, if_neg (by simpa using hpos)]
      simp only [sumValues, List.map_cons, List.sum_cons] at ih ⊢
      omega

theorem sumValues_filter_split {K : Type} [DecidableEq K] (b t : Counter K) (p : K × ℕ)
    (hnp : chas t p.1 = false) :
    sumValues (b.filter fun q => !chas t q.1)
      = sumValues (b.filter fun q => !chas (p :: t) q.1)
        + sumValues (b.filter fun q => decide (q.1 = p.1)) := by
  induction b with
  | nil => rfl
  | cons q s ih =>
    by_cases hq : q.1 = p.1
    · have htq : chas t q.1 = false := by rw [hq]; exact hnp
      have hptq : chas (p :: t) q.1 = true := by
        rw [chas, if_pos hq.symm]
      rw [List.filter_cons, if_pos (by simp [htq]),
        List.filter_cons, if_neg (by simp [hptq]),
        List.filter_cons, if_pos (by simpa using hq)]
      simp only [sumValues, List.map_cons, List.sum_cons] at ih ⊢
      omega
    · have hptq : chas (p :: t) q.1 = chas t q.1 := by
        rw [chas, if_neg (fun he => hq he.symm)]
      rw [List.filter_cons, List.filter_cons, List.filter_cons,
        if_neg (show ¬ (decide (q.1 = p.1)) = true by simpa using hq), hptq]
      by_cases hc : chas t q.1 = true
      · rw [if_neg (by simp [hc]), if_neg (by simp [hc])]
        exact ih
      · rw [Bool.not_eq_true] at hc
        rw [if_pos (by simp [hc]), if_pos (by simp [hc])]
        simp only [sumValues, List.map_cons, List.sum_cons] at ih ⊢
        omega

theorem sumValues_cross {K : Type} [DecidableEq K] (a b : Counter K)
    (hA : KeyNodup a) (hB : KeyNodup b) :
    (a.map fun p => cget b p.1).sum + sumValues (b.filter fun q => !chas a q.1)
      = sumValues b := by
  induction a with
  | nil =>
    have : (b.filter fun q => !chas ([] : Counter K) q.1) = b := by
      rw [List.filter_eq_self]
      intro p _
      rfl
    rw [this]
    simp
  | cons p t ih =>
    rw [KeyNodup, List.map_cons, List.nodup_cons] at hA
    obtain ⟨hp1, ht⟩ := hA
    have hct : chas t p.1 = false := by
      cases hc : chas t p.1 with
      | false => rfl
      | true => exact absurd ((chas_iff_mem t p.1).1 hc) hp1
    have hsplit := sumValues_filter_split b t p hct
    have hkey := sumValues_filter_key b p.1 hB
    have hind := ih ht
    simp only [List.map_cons, List.sum_cons]
    omega

/-- Counter addition adds the total counts. -/
theorem sumValues_counterAdd {K : Type} [DecidableEq K] (a b : Counter K)
    (hA : KeyNodup a) (hB : KeyNodup b) :
    sumValues (counterAdd a b) = sumValues a + sumValues b := by
  unfold counterAdd
  rw [sumValues_append, sumValues_addLeft a b]
  have hdrop : sumValues (b.filter fun p => !chas a p.1 && decide (0 < p.2))
      = sumValues (b.filter fun p => !chas a p.1) :=
    sumValues_filter_dropZeros b (fun p => !chas a p.1)
  rw [hdrop]
  have := sumValues_cross a b hA hB
  omega

theorem cget_tally_step {K : Type} [DecidableEq K] (l : List K) (c : Counter K) (k : K) :
    cget (l.foldl (fun c x => cset c x (cget c x + 1)) c) k = cget c k + l.count k := by
  induction l generalizing c with
  | nil => simp
  | cons x t ih =>
    rw [List.foldl_cons, ih, cget_cset]
    by_cases hx : x = k
    · subst hx
      rw [if_pos rfl, List.count_cons]
      simp
      omega
    · rw [if_neg hx, List.count_cons]
      have hbe : (x == k) = false := by simpa using hx
      rw [hbe]
      simp

theorem chas_tally_step {K : Type} [DecidableEq K] (l : List K) (c : Counter K) (k : K) :
    chas (l.foldl (fun c x => cset c x (cget c x + 1)) c) k
      = (chas c k || decide (k ∈ l)) := by
  induction l generalizing c with
  | nil => simp
  | cons x t ih =>
    rw [List.foldl_cons, ih, chas_cset]
    by_cases hx : x = k
    · subst hx
      simp
    · have hkx : ¬ k = x := fun he => hx he.symm
      simp only [List.mem_cons]
      simp [hx, hkx]

theorem keyNodup_tally_step {K : Type} [DecidableEq K] (l : List K) (c : Counter K)
    (hc : KeyNodup c) : KeyNodup (l.foldl (fun c x => cset c x (cget c x + 1)) c) := by
  induction l generalizing c with
  | nil => exact hc
  | cons x t ih =>
    rw [List.foldl_cons]
    exact ih _ (keyNodup_cset c x (cget c x + 1) hc)

theorem sumValues_tally_step {K : Type} [DecidableEq K] (l : List K) (c : Counter K) :
    sumValues (l.foldl (fun c x => cset c x (cget c x + 1)) c)
      = sumValues c + l.length := by
  induction l generalizing c with
  | nil => simp
  | cons x t ih =>
    rw [List.foldl_cons, ih]
    cases hc : chas c x with
    | true =>
      rw [sumValues_cset_of_chas c x 1 hc]
      simp only [List.length_cons]
      omega
    | false =>
      rw [cget_eq_zero_of_chas_false c x hc, sumValues_cset_of_chas_false c x (0 + 1) hc]
      simp only [List.length_cons]
      omega

theorem cget_tally {K : Type} [DecidableEq K] (l : List K) (k : K) :
    cget (tally l) k = l.count k := by
  unfold tally
  rw [cget_tally_step]
  simp [cget]

theorem chas_tally {K : Type} [DecidableEq K] (l : List K) (k : K) :
    chas (tally l) k = decide (k ∈ l) := by
  unfold tally
  rw [chas_tally_step]
  rfl

theorem keyNodup_tally {K : Type} [DecidableEq K] (l : List K) : KeyNodup (tally l) :=
  keyNodup_tally_step l [] (by simp [KeyNodup])

/-- Counting a batch stores one unit per element: the counts of a tally sum to the
length of the batch. -/
theorem sumValues_tally {K : Type} [DecidableEq K] (l : List K) :
    sumValues (tally l) = l.length := by
  unfold tally
  rw [sumValues_tally_step]
  simp [sumValues]

theorem cget_zeroFill {K : Type} [DecidableEq K] (c : Counter K) (univ : List K) (k : K) :
    cget (zeroFill c univ) k = cget c k := by
  unfold zeroFill
  induction univ generalizing c with
  | nil => rfl
  | cons g t ih =>
    rw [List.foldl_cons, ih, cget_cset]
    by_cases hg : g = k
    · subst hg
      rw [if_pos rfl]
    · rw [if_neg hg]

theorem chas_zeroFill {K : Type} [DecidableEq K] (c : Counter K) (univ : List K) (k : K) :
    chas (zeroFill c univ) k = (chas c k || decide (k ∈ univ)) := by
  unfold zeroFill
  induction univ generalizing c with
  | nil => simp
  | cons g t ih =>
    rw [List.foldl_cons, ih, chas_cset]
    by_cases hg : g = k
    · subst hg
      simp
    · have hkg : ¬ k = g := fun he => hg he.symm
      simp [hg, hkg]

theorem keyNodup_zeroFill {K : Type} [DecidableEq K] (c : Counter K) (univ : List K)
    (hc : KeyNodup c) : KeyNodup (zeroFill c univ) := by
  unfold zeroFill
  induction univ generalizing c with
  | nil => exact hc
  | cons g t ih =>
    rw [List.foldl_cons]
    exact ih _ (keyNodup_cset c g (cget c g) hc)

/-- The zero-fill loop never changes the stored total. -/
theorem sumValues_zeroFill {K : Type} [DecidableEq K] (c : Counter K) (univ : List K) :
    sumValues (zeroFill c univ) = sumValues c := by
  unfold zeroFill
  induction univ generalizing c with
  | nil => rfl
  | cons g t ih =>
    rw [List.foldl_cons, ih]
    cases hc : chas c g with
    | true =>
      have h := sumValues_cset_of_chas c g 0 hc
      simp only [Nat.add_zero] at h
      exact h
    | false =>
      rw [cget_eq_zero_of_chas_false c g hc, sumValues_cset_of_chas_false c g 0 hc]
      omega

/-!
### The counting pipeline

graph_counts.py orchestrates generation, canonicalization and counting (the file
generated_graph_distr.py repeats the same two functions verbatim and adds the
zero-fill step).  The graph generator is an opaque callable drawing from the global
random state; the embedding threads that state explicitly as a value of an abstract
type S.  canonically_label (nauty.py:15) is passed as a function from the worker
identifier (its file_id argument) and the generated batch to either an error or the
list of canonical keys, so that a pure backend and the file-based backend model
below can both instantiate it.  The pool is modelled sequentially: workers share no
state, apply_async dispatches them by index, and the gather loop of
graph_counts.py:49-50 folds the results in index order, re-raising the first worker
error through the get() call.
-/

/-- The Python exceptions the embedding distinguishes: ValueError from the Pool
constructor for a worker count below 1, the OSError subprocess.call raises when the
executable is missing, and the FileNotFoundError open() raises on a missing
temporary file. -/
inductive PyErr : Type
  | poolValueError
  | execNotFound
  | fileNotFound
  | networkxError
  deriving DecidableEq

/-- _helpers.generate_graphs (lines 42-57): draw m graphs one after the other from
the generator, threading the global random state. -/
def generateGraphs {S G : Type} (gen : S → G × S) : ℕ → S → List G × S
  | 0, s => ([], s)
  | m + 1, s =>
    let first := gen s
    let rest := generateGraphs gen m first.2
    (first.1 :: rest.1, rest.2)

/-- The chunk bound _CHUNCK_SIZE of graph_counts.py:14. -/
def CHUNCK_SIZE : ℤ := 1000000

/-- The chunk list of one worker (graph_counts.py:78-81): divmod by the chunk
bound, num_chuncks_with_equal_size copies of the bound, then the remaining chunk
when its size is positive.  divmod on Python ints is floor division with the
matching remainder, Int.ediv and Int.emod; a Python list repeated a negative
number of times is empty, List.replicate applied to toNat. -/
def workerChunks (n : ℤ) : List ℤ :=
  List.replicate (n.ediv CHUNCK_SIZE).toNat CHUNCK_SIZE
    ++ (if 0 < n.emod CHUNCK_SIZE then [n.emod CHUNCK_SIZE] else [])

/-- The chunk loop of _compute_graph_counts (graph_counts.py:83-95): for each chunk
size, generate that many graphs (range over a nonpositive size is empty, toNat),
canonically label them, count them with Counter, and fold the counts into the
running table with Counter addition. -/
def workerLoop {S G K : Type} [DecidableEq K] (gen : S → G × S)
    (canon : List G → Except PyErr (List K)) :
    List ℤ → S → Counter K → Except PyErr (Counter K)
  | [], _, acc => .ok acc
  | sz :: rest, s, acc =>
    let gs := generateGraphs gen sz.toNat s
    match canon gs.1 with
    | .error e => .error e
    | .ok keys => workerLoop gen canon rest gs.2 (counterAdd acc (tally keys))

/-- _compute_graph_counts (graph_counts.py:54-97).  When is_deterministic is true
the worker seeds the random state exactly once, before the chunk loop, from its
process identifier (lines 71-75); otherwise the state inherited by the forked
process (the initS argument) is left in place.  The process identifier is also
the file_id handed to canonically_label at line 89. -/
def workerRun {S G K : Type} [DecidableEq K] (gen : S → G × S)
    (canon : ℕ → List G → Except PyErr (List K)) (seedOf : ℕ → S) (initS : S)
    (isDet : Bool) (pid : ℕ) (n : ℤ) : Except PyErr (Counter K) :=
  workerLoop gen (canon pid) (workerChunks n) (if isDet then seedOf pid else initS) []

/-- The per-worker assignment of compute_graph_counts (graph_counts.py:39-41):
int(num_graphs / num_processes) for every worker, Python float division truncated,
plus num_graphs mod num_processes for worker 0 only. -/
def assignCount (n p : ℤ) (i : ℕ) : ℤ :=
  pyIntDiv n p + (if i = 0 then n % p else 0)

/-- The gather loop of compute_graph_counts (graph_counts.py:48-50): fetch each
worker result in index order and fold it into the running total with Counter
addition; a worker error is re-raised by its get() call. -/
def gatherWorkers {S G K : Type} [DecidableEq K] (gen : S → G × S)
    (canon : ℕ → List G → Except PyErr (List K)) (seedOf : ℕ → S)
    (initS : ℕ → S) (isDet : Bool) (n p : ℤ) :
    List ℕ → Counter K → Except PyErr (Counter K)
  | [], acc => .ok acc
  | i :: rest, acc =>
    match workerRun gen canon seedOf (initS i) isDet i (assignCount n p i) with
    | .error e => .error e
    | .ok t => gatherWorkers gen canon seedOf initS isDet n p rest (counterAdd acc t)

/-- compute_graph_counts (graph_counts.py:16-52): the Pool constructor rejects a
worker count below 1 with ValueError before any work starts; otherwise one worker
per index in range(num_processes) is dispatched with its assignment and the
resulting tables are merged in index order starting from an empty Counter. -/
def computeGraphCounts {S G K : Type} [DecidableEq K] (gen : S → G × S)
    (canon : ℕ → List G → Except PyErr (List K)) (seedOf : ℕ → S)
    (initS : ℕ → S) (isDet : Bool) (n p : ℤ) : Except PyErr (Counter K) :=
  if p < 1 then .error .poolValueError
  else gatherWorkers gen canon seedOf initS isDet n p (List.range p.toNat) []

/-- generated_graph_distr (generated_graph_distr.py:16-47): compute the graph
counts, then insert every key of the all-graphs oracle output that is absent with
count 0 (lines 41-45). -/
def generatedGraphDistr {S G K : Type} [DecidableEq K] (gen : S → G × S)
    (canon : ℕ → List G → Except PyErr (List K)) (seedOf : ℕ → S)
    (initS : ℕ → S) (isDet : Bool) (n p : ℤ) (univ : List K) :
    Except PyErr (Counter K) :=
  match computeGraphCounts gen canon seedOf initS isDet n p with
  | .error e => .error e
  | .ok t => .ok (zeroFill t univ)

theorem generateGraphs_length {S G : Type} (gen : S → G × S) (m : ℕ) (s : S) :
    (generateGraphs gen m s).1.length = m := by
  induction m generalizing s with
  | zero => rfl
  | succ k ih =>
    rw [generateGraphs]
    simp [ih]

theorem generateGraphs_add {S G : Type} (gen : S → G × S) (m1 m2 : ℕ) (s : S) :
    generateGraphs gen (m1 + m2) s
      = ((generateGraphs gen m1 s).1 ++ (generateGraphs gen m2 (generateGraphs gen m1 s).2).1,
         (generateGraphs gen m2 (generateGraphs gen m1 s).2).2) := by
  induction m1 generalizing s with
  | zero => simp [generateGraphs]
  | succ k ih =>
    have hadd : k + 1 + m2 = (k + m2) + 1 := by omega
    rw [hadd, generateGraphs, ih (gen s).2, generateGraphs]
    simp

/-- The chunk sizes of a nonnegative total sum back to the total. -/
theorem workerChunks_sum (n : ℤ) (hn : 0 ≤ n) :
    ((workerChunks n).map Int.toNat).sum = n.toNat := by
  unfold workerChunks CHUNCK_SIZE
  have hq : 0 ≤ n.ediv 1000000 := Int.ediv_nonneg hn (by norm_num)
  have hr : 0 ≤ n.emod 1000000 := Int.emod_nonneg n (by norm_num)
  have hid : 1000000 * (n.ediv 1000000) + n.emod 1000000 = n := Int.ediv_add_emod n 1000000
  have hrep : ((List.replicate (n.ediv 1000000).toNat (1000000 : ℤ)).map Int.toNat).sum
      = (n.ediv 1000000).toNat * 1000000 := by
    rw [List.map_replicate, List.sum_replicate, smul_eq_mul]
    simp
  rw [List.map_append, List.sum_append, hrep]
  by_cases hpos : 0 < n.emod 1000000
  · rw [if_pos hpos]
    simp only [List.map_cons, List.map_nil, List.sum_cons, List.sum_nil]
    omega
  · rw [if_neg hpos]
    simp only [List.map_nil, List.sum_nil]
    omega

/-- The total of the chunk list in closed form: the total itself when nonnegative,
and otherwise the remainder of the floor divmod alone, because a negative total
still schedules its final remainder chunk (Python divmod rounds the quotient
toward minus infinity, leaving a remainder in [0, chunk bound)). -/
def chunkTotal (n : ℤ) : ℕ :=
  if 0 ≤ n then n.toNat else (n.emod CHUNCK_SIZE).toNat

theorem workerChunks_total (n : ℤ) :
    ((workerChunks n).map Int.toNat).sum = chunkTotal n := by
  by_cases hn : 0 ≤ n
  · rw [workerChunks_sum n hn]
    unfold chunkTotal
    rw [if_pos hn]
  · unfold workerChunks chunkTotal CHUNCK_SIZE
    push_neg at hn
    have hid : 1000000 * (n.ediv 1000000) + n.emod 1000000 = n := Int.ediv_add_emod n 1000000
    have hr : 0 ≤ n.emod 1000000 := Int.emod_nonneg n (by norm_num)
    have hlt : n.emod 1000000 < 1000000 := Int.emod_lt_of_pos n (by norm_num)
    have hq : (n.ediv 1000000).toNat = 0 := by omega
    rw [hq, List.replicate_zero, List.nil_append]
    rw [if_neg (show ¬ (0 ≤ n) by omega)]
    by_cases hpos : 0 < n.emod 1000000
    · rw [if_pos hpos]
      simp only [List.map_cons, List.map_nil, List.sum_cons, List.sum_nil]
      omega
    · rw [if_neg hpos]
      simp only [List.map_nil, List.sum_nil]
      omega

/-- With a total canonicalizer returning one key per graph, the chunk loop always
succeeds, keeps the key set duplicate-free, and adds exactly the sum of the chunk
sizes to the running total. -/
theorem workerLoop_pure {S G K : Type} [DecidableEq K] (gen : S → G × S)
    (f : List G → List K) (hlen : ∀ gs, (f gs).length = gs.length) :
    ∀ (sizes : List ℤ) (s : S) (acc : Counter K), KeyNodup acc →
      ∃ t, workerLoop gen (fun gs => .ok (f gs)) sizes s acc = .ok t
        ∧ KeyNodup t ∧ sumValues t = sumValues acc + (sizes.map Int.toNat).sum := by
  intro sizes
  induction sizes with
  | nil =>
    intro s acc hacc
    exact ⟨acc, rfl, hacc, by simp⟩
  | cons sz rest ih =>
    intro s acc hacc
    have hnodup : KeyNodup (counterAdd acc (tally (f (generateGraphs gen sz.toNat s).1))) :=
      keyNodup_counterAdd _ _ hacc (keyNodup_tally _)
    obtain ⟨t, hrun, hnd, hsum⟩ :=
      ih (generateGraphs gen sz.toNat s).2
        (counterAdd acc (tally (f (generateGraphs gen sz.toNat s).1))) hnodup
    refine ⟨t, ?_, hnd, ?_⟩
    · rw [workerLoop]
      exact hrun
    · rw [hsum, sumValues_counterAdd _ _ hacc (keyNodup_tally _), sumValues_tally,
        hlen, generateGraphs_length]
      simp only [List.map_cons, List.sum_cons]
      omega

/-- With a total canonicalizer, one worker always succeeds and its table holds
exactly the sum of its chunk sizes. -/
theorem workerRun_pure {S G K : Type} [DecidableEq K] (gen : S → G × S)
    (f : ℕ → List G → List K) (hlen : ∀ i gs, (f i gs).length = gs.length)
    (seedOf : ℕ → S) (initS : S) (isDet : Bool) (pid : ℕ) (n : ℤ) :
    ∃ t, workerRun gen (fun i gs => .ok (f i gs)) seedOf initS isDet pid n = .ok t
      ∧ KeyNodup t ∧ sumValues t = chunkTotal n := by
  obtain ⟨t, hrun, hnd, hsum⟩ :=
    workerLoop_pure gen (f pid) (hlen pid) (workerChunks n)
      (if isDet then seedOf pid else initS) [] (by simp [KeyNodup])
  rw [workerChunks_total] at hsum
  exact ⟨t, hrun, hnd, by simpa [sumValues] using hsum⟩

theorem gatherWorkers_pure {S G K : Type} [DecidableEq K] (gen : S → G × S)
    (f : ℕ → List G → List K) (hlen : ∀ i gs, (f i gs).length = gs.length)
    (seedOf : ℕ → S) (initS : ℕ → S) (isDet : Bool) (n p : ℤ) :
    ∀ (is : List ℕ) (acc : Counter K), KeyNodup acc →
      ∃ t, gatherWorkers gen (fun i gs => .ok (f i gs)) seedOf initS isDet n p is acc = .ok t
        ∧ KeyNodup t
        ∧ sumValues t = sumValues acc
            + (is.map fun i => chunkTotal (assignCount n p i)).sum := by
  intro is
  induction is with
  | nil =>
    intro acc hacc
    exact ⟨acc, rfl, hacc, by simp⟩
  | cons i rest ih =>
    intro acc hacc
    obtain ⟨w, hw, hwnd, hwsum⟩ :=
      workerRun_pure gen f hlen seedOf (initS i) isDet i (assignCount n p i)
    obtain ⟨t, hrun, hnd, hsum⟩ := ih (counterAdd acc w) (keyNodup_counterAdd _ _ hacc hwnd)
    refine ⟨t, ?_, hnd, ?_⟩
    · rw [gatherWorkers, hw]
      exact hrun
    · rw [hsum, sumValues_counterAdd _ _ hacc hwnd, hwsum]
      simp only [List.map_cons, List.sum_cons]
      omega

/-- With a total canonicalizer and a valid worker count, compute_graph_counts
returns a table whose counts sum to the total of all worker assignments, each
worker assignment itself decomposed into its chunk sizes. -/
theorem computeGraphCounts_pure {S G K : Type} [DecidableEq K] (gen : S → G × S)
    (f : ℕ → List G → List K) (hlen : ∀ i gs, (f i gs).length = gs.length)
    (seedOf : ℕ → S) (initS : ℕ → S) (isDet : Bool) (n p : ℤ) (hp : 1 ≤ p) :
    ∃ t, computeGraphCounts gen (fun i gs => .ok (f i gs)) seedOf initS isDet n p = .ok t
      ∧ KeyNodup t
      ∧ sumValues t = ((List.range p.toNat).map
          fun i => chunkTotal (assignCount n p i)).sum := by
  obtain ⟨t, hrun, hnd, hsum⟩ :=
    gatherWorkers_pure gen f hlen seedOf initS isDet n p (List.range p.toNat) []
      (by simp [KeyNodup])
  refine ⟨t, ?_, hnd, by simpa [sumValues] using hsum⟩
  unfold computeGraphCounts
  rw [if_neg (by omega)]
  exact hrun

theorem pyIntDiv_ofNat (a b : ℕ) : pyIntDiv (a : ℤ) (b : ℤ) = pyIntDivNat a b := by
  unfold pyIntDiv
  rw [if_pos (Int.natCast_nonneg a), Int.toNat_natCast]
  norm_num

theorem pyIntDiv_neg_ofNat (a b : ℕ) (ha : 0 < a) :
    pyIntDiv (-(a : ℤ)) (b : ℤ) = -pyIntDivNat a b := by
  unfold pyIntDiv
  rw [if_neg (by omega), neg_neg, Int.toNat_natCast]
  norm_num

theorem pyIntDivNat_bigTie : pyIntDivNat (2 ^ 53 + 1) 1 = 2 ^ 53 :=
  pyIntDivNat_tie _ _ (by push_cast; norm_num)

theorem pyIntDivNat_bigTie2 : pyIntDivNat (2 ^ 54 + 2) 2 = 2 ^ 53 :=
  pyIntDivNat_tie _ _ (by push_cast; norm_num)

theorem pyIntDiv_bigTie : pyIntDiv (2 ^ 53 + 1) 1 = 2 ^ 53 := by
  calc pyIntDiv (2 ^ 53 + 1) 1 = pyIntDivNat (2 ^ 53 + 1) 1 := by
        rw [show ((2 : ℤ) ^ 53 + 1) = ((2 ^ 53 + 1 : ℕ) : ℤ) by push_cast]
        try exact pyIntDiv_ofNat (2 ^ 53 + 1) 1
    _ = 2 ^ 53 := pyIntDivNat_bigTie

theorem pyIntDiv_bigTie2 : pyIntDiv (2 ^ 54 + 2) 2 = 2 ^ 53 := by
  calc pyIntDiv (2 ^ 54 + 2) 2 = pyIntDivNat (2 ^ 54 + 2) 2 := by
        rw [show ((2 : ℤ) ^ 54 + 2) = ((2 ^ 54 + 2 : ℕ) : ℤ) by push_cast]
        try exact pyIntDiv_ofNat (2 ^ 54 + 2) 2
    _ = 2 ^ 53 := pyIntDivNat_bigTie2

theorem pyIntDiv_small (a b : ℕ) (hb : 0 < b) (hd : b ∣ a) (hle : a / b ≤ 2 ^ 53) :
    pyIntDiv (a : ℤ) (b : ℤ) = (a / b : ℕ) := by
  rw [pyIntDiv_ofNat]
  rcases Nat.eq_zero_or_pos a with ha | ha
  · subst ha
    rw [Nat.zero_div]
    simp [pyIntDivNat]
  · have hq : 0 < a / b := Nat.div_pos (Nat.le_of_dvd ha hd) hb
    have hbne : ((b : ℚ)) ≠ 0 := by
      exact_mod_cast hb.ne'
    exact pyIntDivNat_intValue a b (a / b) hb hq hle (Nat.cast_div hd hbne).symm

/-!
### The claims about worker partitioning and conservation

The specification states that the per-worker assignment uses floor division:
base = total_samples // worker_count, worker 0 receiving base plus the remainder.
The source (graph_counts.py:39) instead computes int(num_graphs / num_processes)
with binary64 true division.  The two agree up to 2 ^ 53 and then separate: at
num_graphs = 2 ^ 53 + 1 with one worker, the quotient rounds down to 2 ^ 53, so the
single worker is assigned 2 ^ 53 samples instead of 2 ^ 53 + 1, and with
num_graphs = 2 ^ 54 + 2 and two workers the table sums to 2 ^ 54 instead of
2 ^ 54 + 2, violating conservation.
-/

/-- C2.  The claim says worker 0 receives floor(total / workers) + total mod
workers; at total = 2 ^ 53 + 1 with one worker the code assigns
int((2 ^ 53 + 1) / 1) = 2 ^ 53 samples, one fewer than the floor-division value
2 ^ 53 + 1, because binary64 rounding of the quotient ties to the even mantissa. -/
theorem partition_floatDivision_mismatch :
    assignCount (2 ^ 53 + 1) 1 0 = 2 ^ 53
      ∧ (2 ^ 53 + 1 : ℤ) / 1 + (2 ^ 53 + 1 : ℤ) % 1 = 2 ^ 53 + 1
      ∧ (2 ^ 53 : ℤ) ≠ 2 ^ 53 + 1 := by
  refine ⟨?_, by simp, by norm_num⟩
  unfold assignCount
  rw [if_pos rfl, pyIntDiv_bigTie, Int.emod_one]
  try omega

/-- C1.  At num_graphs = 2 ^ 54 + 2 with 2 workers and a canonicalizer returning
one key per graph, the table returned by compute_graph_counts sums to 2 ^ 54, not
to the requested 2 ^ 54 + 2: both workers are assigned int((2 ^ 54 + 2) / 2)
= 2 ^ 53 samples by binary64 division, and the remainder (2 ^ 54 + 2) mod 2 = 0
restores nothing. -/
theorem conservation_assign0 : assignCount (2 ^ 54 + 2) 2 0 = 2 ^ 53 := by
  have hmod : (2 ^ 54 + 2 : ℤ) % 2 = 0 := by
    rw [show (2 ^ 54 + 2 : ℤ) = 2 * (2 ^ 53 + 1) by ring]
    exact Int.mul_emod_right 2 _
  unfold assignCount
  rw [if_pos rfl, pyIntDiv_bigTie2, hmod]
  norm_num

theorem conservation_assign1 : assignCount (2 ^ 54 + 2) 2 1 = 2 ^ 53 := by
  unfold assignCount
  rw [if_neg (by norm_num), pyIntDiv_bigTie2]
  norm_num

theorem conservation_chunkTotal : chunkTotal (2 ^ 53) = 2 ^ 53 := by
  unfold chunkTotal
  rw [if_pos (by positivity), show ((2 : ℤ) ^ 53) = ((2 ^ 53 : ℕ) : ℤ) by push_cast,
    Int.toNat_natCast]

theorem sum_over_range_two (g : ℕ → ℕ) : ((List.range 2).map g).sum = g 0 + g 1 := by
  rw [show List.range 2 = [0, 1] from rfl]
  simp

theorem conservation_sum_eval :
    ((List.range (2 : ℤ).toNat).map
      fun i => chunkTotal (assignCount (2 ^ 54 + 2) 2 i)).sum = 2 ^ 54 := by
  rw [show (2 : ℤ).toNat = 2 from rfl, sum_over_range_two]
  rw [conservation_assign0, conservation_assign1, conservation_chunkTotal]
  try norm_num

/-- C1.  At num_graphs = 2 ^ 54 + 2 with 2 workers and a canonicalizer returning
one key per graph, the table returned by compute_graph_counts sums to 2 ^ 54, not
to the requested 2 ^ 54 + 2: both workers are assigned int((2 ^ 54 + 2) / 2)
= 2 ^ 53 samples by binary64 division, and the remainder (2 ^ 54 + 2) mod 2 = 0
restores nothing. -/
theorem conservation_violation :
    ∃ t : Counter ℕ,
      computeGraphCounts (fun s : Unit => ((), s))
          (fun _ gs => .ok (gs.map fun _ => (0 : ℕ)))
          (fun _ => ()) (fun _ => ()) true (2 ^ 54 + 2) 2 = .ok t
        ∧ sumValues t = 2 ^ 54 ∧ (2 ^ 54 : ℕ) ≠ 2 ^ 54 + 2 := by
  obtain ⟨t, hok, hnd, hsum⟩ :=
    computeGraphCounts_pure (fun s : Unit => ((), s))
      (fun _ gs => gs.map fun _ => (0 : ℕ)) (by intro i gs; simp)
      (fun _ => ()) (fun _ => ()) true (2 ^ 54 + 2) 2 (by norm_num)
  refine ⟨t, hok, ?_, by norm_num⟩
  rw [hsum]
  exact conservation_sum_eval




/-!
### Determinism, merge algebra and zero-fill
-/

theorem workerRun_det {S G K : Type} [DecidableEq K] (gen : S → G × S)
    (canon : ℕ → List G → Except PyErr (List K)) (seedOf : ℕ → S) (s1 s2 : S)
    (pid : ℕ) (m : ℤ) :
    workerRun gen canon seedOf s1 true pid m = workerRun gen canon seedOf s2 true pid m := by
  unfold workerRun
  rfl

theorem gatherWorkers_det {S G K : Type} [DecidableEq K] (gen : S → G × S)
    (canon : ℕ → List G → Except PyErr (List K)) (seedOf : ℕ → S)
    (env1 env2 : ℕ → S) (n p : ℤ) :
    ∀ (is : List ℕ) (acc : Counter K),
      gatherWorkers gen canon seedOf env1 true n p is acc
        = gatherWorkers gen canon seedOf env2 true n p is acc := by
  intro is
  induction is with
  | nil => intro acc; rfl
  | cons i rest ih =>
    intro acc
    rw [gatherWorkers, gatherWorkers,
      workerRun_det gen canon seedOf (env1 i) (env2 i) i (assignCount n p i)]
    cases workerRun gen canon seedOf (env2 i) true i (assignCount n p i) with
    | error e => rfl
    | ok t => exact ih (counterAdd acc t)

/-- C3.  With is_deterministic true, each worker reseeds the shared random state
from its own index (graph_counts.py:71-75) before drawing anything, and each
worker uses its index as the temp-file token (line 89, modelled by the first
argument of the canonicalizer).  The table therefore does not depend on the
random states the forked worker processes inherit: two runs with the same total,
generator, worker count and canonicalization backend (a fixed function of its
input, which is the determinism hypothesis on the backend) return identical
tables, whatever states env1 and env2 the processes start from. -/
theorem determinism_of_reseeding {S G K : Type} [DecidableEq K] (gen : S → G × S)
    (canon : ℕ → List G → Except PyErr (List K)) (seedOf : ℕ → S)
    (env1 env2 : ℕ → S) (n p : ℤ) :
    computeGraphCounts gen canon seedOf env1 true n p
      = computeGraphCounts gen canon seedOf env2 true n p := by
  unfold computeGraphCounts
  by_cases hp : p < 1
  · rw [if_pos hp, if_pos hp]
  · rw [if_neg hp, if_neg hp]
    exact gatherWorkers_det gen canon seedOf env1 env2 n p (List.range p.toNat) []

instance {K : Type} [DecidableEq K] (c : Counter K) : Decidable (KeyNodup c) := by
  unfold KeyNodup
  infer_instance

theorem mem_chas {K : Type} [DecidableEq K] (c : Counter K) (p : K × ℕ) (hp : p ∈ c) :
    chas c p.1 = true := by
  rw [chas_iff_mem]
  exact List.mem_map_of_mem Prod.fst hp

theorem dictEq_of {K : Type} [DecidableEq K] (x y : Counter K)
    (h1 : ∀ k, chas x k = chas y k) (h2 : ∀ k, cget x k = cget y k) : DictEq x y := by
  refine ⟨?_, ?_, ?_⟩
  · intro p hp
    rw [← h1 p.1]
    exact mem_chas x p hp
  · intro p hp
    rw [h1 p.1]
    exact mem_chas y p hp
  · intro p _
    exact h2 p.1

theorem addBool_assoc (A B C : Bool) (x y z : ℕ)
    (hA : A = false → x = 0) (hB : B = false → y = 0) (hC : C = false → z = 0) :
    ((((A || B) && decide (0 < x + y)) || C) && decide (0 < x + y + z))
      = ((A || ((B || C) && decide (0 < y + z))) && decide (0 < x + (y + z))) := by
  rw [Bool.eq_iff_iff]
  simp only [Bool.and_eq_true, Bool.or_eq_true, decide_eq_true_eq]
  cases A <;> cases B <;> cases C <;> (simp_all; try omega)

theorem counterAdd_comm_dictEq {K : Type} [DecidableEq K] (a b : Counter K)
    (hA : KeyNodup a) (hB : KeyNodup b) :
    DictEq (counterAdd a b) (counterAdd b a) := by
  refine dictEq_of _ _ ?_ ?_
  · intro k
    rw [chas_counterAdd a b k hA hB, chas_counterAdd b a k hB hA,
      Bool.or_comm, Nat.add_comm]
  · intro k
    rw [cget_counterAdd a b k hA hB, cget_counterAdd b a k hB hA, Nat.add_comm]

theorem counterAdd_assoc_dictEq {K : Type} [DecidableEq K] (a b c : Counter K)
    (hA : KeyNodup a) (hB : KeyNodup b) (hC : KeyNodup c) :
    DictEq (counterAdd (counterAdd a b) c) (counterAdd a (counterAdd b c)) := by
  refine dictEq_of _ _ ?_ ?_
  · intro k
    rw [chas_counterAdd _ c k (keyNodup_counterAdd a b hA hB) hC,
      chas_counterAdd a _ k hA (keyNodup_counterAdd b c hB hC),
      chas_counterAdd a b k hA hB, chas_counterAdd b c k hB hC,
      cget_counterAdd a b k hA hB, cget_counterAdd b c k hB hC]
    exact addBool_assoc (chas a k) (chas b k) (chas c k) (cget a k) (cget b k) (cget c k)
      (cget_eq_zero_of_chas_false a k) (cget_eq_zero_of_chas_false b k)
      (cget_eq_zero_of_chas_false c k)
  · intro k
    rw [cget_counterAdd _ c k (keyNodup_counterAdd a b hA hB) hC,
      cget_counterAdd a _ k hA (keyNodup_counterAdd b c hB hC),
      cget_counterAdd a b k hA hB, cget_counterAdd b c k hB hC, Nat.add_assoc]

theorem tally_merge_dictEq {K : Type} [DecidableEq K] (A B : List K) :
    DictEq (counterAdd (tally A) (tally B)) (tally (A ++ B)) := by
  refine dictEq_of _ _ ?_ ?_
  · intro k
    rw [chas_counterAdd _ _ k (keyNodup_tally A) (keyNodup_tally B),
      chas_tally, chas_tally, chas_tally, cget_tally, cget_tally]
    by_cases hmem : k ∈ A ++ B
    · rw [List.mem_append] at hmem
      have hpos : 0 < A.count k + B.count k := by
        rcases hmem with h | h
        · have := List.count_pos_iff.mpr h
          omega
        · have := List.count_pos_iff.mpr h
          omega
      have : decide (k ∈ A ++ B) = true := by
        rw [decide_eq_true_eq, List.mem_append]
        exact hmem
      rw [this]
      rcases hmem with h | h
      · simp [h, hpos]
      · simp [h, hpos]
    · have hA : ¬ k ∈ A := fun h => hmem (List.mem_append.mpr (Or.inl h))
      have hB : ¬ k ∈ B := fun h => hmem (List.mem_append.mpr (Or.inr h))
      simp [hA, hB, hmem]
  · intro k
    rw [cget_counterAdd _ _ k (keyNodup_tally A) (keyNodup_tally B),
      cget_tally, cget_tally, cget_tally, List.count_append]

/-- C5.  The merge used by the aggregator is Counter addition
(graph_counts.py:50 and 95): it adds counts keywise, it is commutative and
associative up to dict equality, and merging the counts of two batches equals
counting the concatenated batch, so merge(count A, count B) = count(A ++ B)
= merge(count B, count A). -/
theorem merge_algebra {K : Type} [DecidableEq K] (a b c : Counter K) (A B : List K)
    (hA : KeyNodup a) (hB : KeyNodup b) (hC : KeyNodup c) :
    (∀ k, cget (counterAdd a b) k = cget a k + cget b k)
      ∧ DictEq (counterAdd a b) (counterAdd b a)
      ∧ DictEq (counterAdd (counterAdd a b) c) (counterAdd a (counterAdd b c))
      ∧ DictEq (counterAdd (tally A) (tally B)) (tally (A ++ B))
      ∧ DictEq (counterAdd (tally A) (tally B)) (counterAdd (tally B) (tally A)) :=
  ⟨fun k => cget_counterAdd a b k hA hB,
   counterAdd_comm_dictEq a b hA hB,
   counterAdd_assoc_dictEq a b c hA hB hC,
   tally_merge_dictEq A B,
   counterAdd_comm_dictEq (tally A) (tally B) (keyNodup_tally A) (keyNodup_tally B)⟩

/-- Witness for the merge algebra at concrete tables and batches over ℕ keys. -/
theorem merge_algebra_witness :
    (∀ k, cget (counterAdd [(0, 2), (1, 0)] [(1, 3)]) k
        = cget [(0, 2), (1, 0)] k + cget [(1, 3)] k)
      ∧ DictEq (counterAdd [(0, 2), (1, 0)] [(1, 3)]) (counterAdd [(1, 3)] [(0, 2), (1, 0)])
      ∧ DictEq (counterAdd (counterAdd [(0, 2), (1, 0)] [(1, 3)]) [(2, 1)])
          (counterAdd [(0, 2), (1, 0)] (counterAdd [(1, 3)] [(2, 1)]))
      ∧ DictEq (counterAdd (tally [0, 1, 0]) (tally [1, 2])) (tally ([0, 1, 0] ++ [1, 2]))
      ∧ DictEq (counterAdd (tally [0, 1, 0]) (tally [1, 2]))
          (counterAdd (tally [1, 2]) (tally [0, 1, 0])) :=
  merge_algebra [(0, 2), (1, 0)] [(1, 3)] [(2, 1)] [0, 1, 0] [1, 2]
    (by decide) (by decide) (by decide)

/-- The graph sequence drawn across a list of chunk sizes, threading the random
state from one chunk into the next exactly as the chunk loop of
_compute_graph_counts does between its generate_graphs calls. -/
def chunkedGraphSeq {S G : Type} (gen : S → G × S) : List ℤ → S → List G × S
  | [], s => ([], s)
  | sz :: rest, s =>
    let gs := generateGraphs gen sz.toNat s
    let more := chunkedGraphSeq gen rest gs.2
    (gs.1 ++ more.1, more.2)

/-- Drawing across chunks with a threaded state is drawing the summed total in
one go. -/
theorem chunkedGraphSeq_eq {S G : Type} (gen : S → G × S) (sizes : List ℤ) (s : S) :
    chunkedGraphSeq gen sizes s = generateGraphs gen ((sizes.map Int.toNat).sum) s := by
  induction sizes generalizing s with
  | nil => rfl
  | cons sz rest ih =>
    rw [chunkedGraphSeq, List.map_cons, List.sum_cons, generateGraphs_add]
    rw [ih]

/-- C7.  Single seeding and chunk-size invariance: with is_deterministic set, the
worker of graph_counts.py seeds its random state exactly once, before the first
chunk of the loop at lines 83-95 and never per chunk, so its run is the plain
chunk loop started from the seed state; consequently for a fixed seed state and
nonnegative total, the graph sequence drawn across the divmod chunking of the
total (full chunks of the bound, then the remainder when positive) equals the
sequence drawn in a single chunk of the whole total, and hence so does the
per-graph canonical-key sequence under any per-graph keying function. -/
theorem single_seeding_chunk_invariance {S G K : Type} [DecidableEq K]
    (gen : S → G × S) (f : G → K) (canon : ℕ → List G → Except PyErr (List K))
    (seedOf : ℕ → S) (initS : S) (pid : ℕ) (n : ℤ) (hn : 0 ≤ n) (s : S) :
    workerRun gen canon seedOf initS true pid n
      = workerLoop gen (canon pid) (workerChunks n) (seedOf pid) []
    ∧ chunkedGraphSeq gen (workerChunks n) s = chunkedGraphSeq gen [n] s
    ∧ (chunkedGraphSeq gen (workerChunks n) s).1.map f
        = (chunkedGraphSeq gen [n] s).1.map f := by
  have h2 : chunkedGraphSeq gen (workerChunks n) s = chunkedGraphSeq gen [n] s := by
    rw [chunkedGraphSeq_eq, chunkedGraphSeq_eq, workerChunks_total]
    unfold chunkTotal
    rw [if_pos hn]
    simp
  exact ⟨rfl, h2, by rw [h2]⟩

/-- Witness for single seeding and chunk-size invariance at total 3 with a
counting-state generator. -/
theorem single_seeding_chunk_invariance_witness :
    workerRun (fun s : ℕ => (s, s + 1)) (fun _ l => Except.ok l) (fun i => i) 0 true 0 3
      = workerLoop (fun s : ℕ => (s, s + 1)) ((fun _ l => Except.ok l) 0)
          (workerChunks 3) ((fun i : ℕ => i) 0) []
    ∧ chunkedGraphSeq (fun s : ℕ => (s, s + 1)) (workerChunks 3) 0
        = chunkedGraphSeq (fun s : ℕ => (s, s + 1)) [3] 0
    ∧ (chunkedGraphSeq (fun s : ℕ => (s, s + 1)) (workerChunks 3) 0).1.map (fun g => g)
        = (chunkedGraphSeq (fun s : ℕ => (s, s + 1)) [3] 0).1.map (fun g => g) :=
  single_seeding_chunk_invariance (fun s : ℕ => (s, s + 1)) (fun g => g)
    (fun _ l => Except.ok l) (fun i => i) 0 0 3 (by decide) 0

/-- C4.  The zero-fill loop of generated_graph_distr.py:41-45 inserts with count 0
every key of the all-graphs oracle output that is absent from the aggregated
counts and keeps present keys untouched, and generated_graph_distr is exactly
compute_graph_counts followed by this loop.  Provided every key of the counts
lies in the oracle output (the contract that canonical keys of the target vertex
count come from the universe the oracle enumerates), the key set of the result is
exactly the oracle key set: no missing keys, no extra keys, existing counts
unchanged, inserted counts zero. -/
theorem zeroFill_completeness {K : Type} [DecidableEq K] (counts : Counter K)
    (univ : List K) (hsub : ∀ p ∈ counts, p.1 ∈ univ) :
    (∀ k, chas (zeroFill counts univ) k = true ↔ k ∈ univ)
      ∧ (∀ p ∈ counts, cget (zeroFill counts univ) p.1 = cget counts p.1)
      ∧ (∀ k ∈ univ, chas counts k = false → cget (zeroFill counts univ) k = 0)
      ∧ (∀ (S G : Type) (gen : S → G × S) (canon : ℕ → List G → Except PyErr (List K))
          (seedOf initS : ℕ → S) (isDet : Bool) (n p : ℤ),
          computeGraphCounts gen canon seedOf initS isDet n p = .ok counts →
            generatedGraphDistr gen canon seedOf initS isDet n p univ
              = .ok (zeroFill counts univ)) := by
  refine ⟨?_, ?_, ?_, ?_⟩
  · intro k
    rw [chas_zeroFill]
    constructor
    · intro h
      rw [Bool.or_eq_true] at h
      rcases h with h | h
      · rw [chas_iff_mem, List.mem_map] at h
        obtain ⟨p, hp, hpk⟩ := h
        exact hpk ▸ hsub p hp
      · exact of_decide_eq_true h
    · intro h
      rw [Bool.or_eq_true]
      right
      exact decide_eq_true h
  · intro p _
    rw [cget_zeroFill]
  · intro k _ hnk
    rw [cget_zeroFill]
    exact cget_eq_zero_of_chas_false counts k hnk
  · intro S G gen canon seedOf initS isDet n p h
    unfold generatedGraphDistr
    rw [h]

/-- Witness for the zero-fill completeness at a concrete table and universe. -/
theorem zeroFill_completeness_witness :
    (∀ k, chas (zeroFill [(0, 2)] [0, 1]) k = true ↔ k ∈ [0, 1])
      ∧ (∀ p ∈ [(0, 2)], cget (zeroFill [(0, 2)] [0, 1]) p.1 = cget [(0, 2)] p.1)
      ∧ (∀ k ∈ [0, 1], chas [(0, 2)] k = false → cget (zeroFill [(0, 2)] [0, 1]) k = 0)
      ∧ (∀ (S G : Type) (gen : S → G × S) (canon : ℕ → List G → Except PyErr (List ℕ))
          (seedOf initS : ℕ → S) (isDet : Bool) (n p : ℤ),
          computeGraphCounts gen canon seedOf initS isDet n p = .ok [(0, 2)] →
            generatedGraphDistr gen canon seedOf initS isDet n p [0, 1]
              = .ok (zeroFill [(0, 2)] [0, 1])) :=
  zeroFill_completeness [(0, 2)] [0, 1] (by decide)

/-- The sentinel UNIFORM of graph_generators.py:9. -/
def UNIFORM : ℤ := -1

/-- The sentinel NORMAL of graph_generators.py:10. -/
def NORMAL : ℤ := -2

/-- _helpers.compute_edge_max_num: int(num_vertices * (num_vertices - 1) / 2),
Python float true division then truncation, exactly like the worker partition
expression of graph_counts.py:39. -/
def compute_edge_max_num (num_vertices : ℤ) : ℤ :=
  pyIntDiv (num_vertices * (num_vertices - 1)) 2

/-- The guard shared by naive_random_graph (graph_generators.py:39-41) and
gnm_random_graph (lines 91-93): ValueError is raised exactly when the requested
edge count falls outside the chained comparison 0 <= num_edges <= edge_max_num
and equals neither sentinel. -/
def numEdgesRejected (num_vertices num_edges : ℤ) : Bool :=
  !decide (0 ≤ num_edges ∧ num_edges ≤ compute_edge_max_num num_vertices)
    && decide (num_edges ≠ UNIFORM) && decide (num_edges ≠ NORMAL)

theorem assignCount_neg5 : assignCount (-5) 1 0 = -5 := by
  have h1 : pyIntDiv (-5) 1 = -5 := by
    rw [show (-5 : ℤ) = -((5 : ℕ) : ℤ) by norm_num,
      show (1 : ℤ) = ((1 : ℕ) : ℤ) by norm_num,
      pyIntDiv_neg_ofNat 5 1 (by norm_num),
      pyIntDivNat_intValue 5 1 5 (by norm_num) (by norm_num) (by norm_num) (by norm_num)]
  unfold assignCount
  rw [if_pos rfl, h1]
  omega

theorem chunkTotal_neg5 : chunkTotal (-5) = 999995 := by
  unfold chunkTotal CHUNCK_SIZE
  rw [if_neg (by norm_num)]
  decide

/-- C8 counterexample.  A negative sample count does not fail fast: at
num_graphs = -5 with one worker the Pool check passes, Python divmod by the
chunk bound gives quotient -1 (dropped by the nonpositive list repeat) and
remainder 999995, so the single worker generates 999995 graphs and
compute_graph_counts returns a table summing to 999995 instead of raising
before any graph is generated. -/
theorem negative_total_generates_graphs :
    ∃ t : Counter Unit,
      computeGraphCounts (fun s : Unit => ((), s))
          (fun _ gs => Except.ok (gs.map fun _ => ()))
          (fun _ => ()) (fun _ => ()) true (-5) 1 = .ok t
        ∧ sumValues t = 999995 := by
  obtain ⟨t, hok, hnd, hsum⟩ :=
    computeGraphCounts_pure (fun s : Unit => ((), s))
      (fun _ gs => gs.map fun _ => ()) (by intro i gs; simp)
      (fun _ => ()) (fun _ => ()) true (-5) 1 (by norm_num)
  refine ⟨t, hok, ?_⟩
  rw [hsum]
  rw [show List.range (1 : ℤ).toNat = [0] from rfl]
  simp only [List.map_cons, List.map_nil, List.sum_cons, List.sum_nil]
  rw [assignCount_neg5, chunkTotal_neg5]
  try omega

theorem natCast_mul_pred (nv : ℕ) :
    (nv : ℤ) * ((nv : ℤ) - 1) = ((nv * (nv - 1) : ℕ) : ℤ) := by
  rcases nv with _ | m
  · simp
  · rw [Nat.add_sub_cancel]
    push_cast
    ring

theorem two_dvd_mul_pred (nv : ℕ) : 2 ∣ nv * (nv - 1) := by
  rcases nv with _ | m
  · simp
  · rw [Nat.add_sub_cancel, Nat.mul_comm]
    exact (Nat.even_mul_succ_self m).two_dvd

/-- C8 amended.  The fail-fast that actually holds: a worker count below 1 is
rejected by the Pool constructor before any work, but a negative sample count is
NOT rejected — the run still succeeds (and, per the counterexample, generates
the divmod remainder of graphs); and for vertex counts small enough that the
float edge-bound expression is exact (nv at most 2 ^ 27), the generator guard
raises exactly for edge counts outside [0, nv(nv-1)/2] that are neither
sentinel UNIFORM = -1 nor NORMAL = -2, and never raises inside the range or at a
sentinel. -/
theorem invalid_parameter_guards {S G K : Type} [DecidableEq K]
    (gen : S → G × S) (f : ℕ → List G → List K)
    (hlen : ∀ i gs, (f i gs).length = gs.length)
    (seedOf initS : ℕ → S) (isDet : Bool) (n p : ℤ) (nv : ℕ)
    (hnv : nv ≤ 2 ^ 27) :
    (p < 1 → computeGraphCounts gen (fun i gs => Except.ok (f i gs)) seedOf initS isDet n p
        = .error .poolValueError)
    ∧ (1 ≤ p → ∃ t, computeGraphCounts gen (fun i gs => Except.ok (f i gs))
        seedOf initS isDet n p = .ok t)
    ∧ compute_edge_max_num nv = ((nv * (nv - 1) / 2 : ℕ) : ℤ)
    ∧ (∀ ne : ℤ, numEdgesRejected nv ne = true
        ↔ (¬ (0 ≤ ne ∧ ne ≤ ((nv * (nv - 1) / 2 : ℕ) : ℤ))
            ∧ ne ≠ UNIFORM ∧ ne ≠ NORMAL)) := by
  have hmax : compute_edge_max_num nv = ((nv * (nv - 1) / 2 : ℕ) : ℤ) := by
    unfold compute_edge_max_num
    rw [natCast_mul_pred, show (2 : ℤ) = ((2 : ℕ) : ℤ) by norm_num]
    refine pyIntDiv_small (nv * (nv - 1)) 2 (by norm_num) (two_dvd_mul_pred nv) ?_
    have hmul : nv * (nv - 1) ≤ 2 ^ 27 * 2 ^ 27 :=
      Nat.mul_le_mul hnv (by omega)
    calc nv * (nv - 1) / 2 ≤ 2 ^ 27 * 2 ^ 27 / 2 := Nat.div_le_div_right hmul
      _ = 2 ^ 53 := by norm_num
  refine ⟨?_, ?_, hmax, ?_⟩
  · intro hp
    unfold computeGraphCounts
    rw [if_pos hp]
  · intro hp
    obtain ⟨t, hok, _, _⟩ :=
      computeGraphCounts_pure gen f hlen seedOf initS isDet n p hp
    exact ⟨t, hok⟩
  · intro ne
    unfold numEdgesRejected
    rw [hmax]
    generalize ((nv * (nv - 1) / 2 : ℕ) : ℤ) = X
    simp [UNIFORM, NORMAL]
    omega

/-- Witness for the parameter guards at worker count 2, total -7 and 3 vertices. -/
theorem invalid_parameter_guards_witness :
    ((2 : ℤ) < 1 → computeGraphCounts (fun s : Unit => ((), s))
        (fun i gs => Except.ok ((fun _ gs => gs.map fun _ => ()) i gs))
        (fun _ => ()) (fun _ => ()) true (-7) 2 = .error .poolValueError)
    ∧ ((1 : ℤ) ≤ 2 → ∃ t, computeGraphCounts (fun s : Unit => ((), s))
        (fun i gs => Except.ok ((fun _ gs => gs.map fun _ => ()) i gs))
        (fun _ => ()) (fun _ => ()) true (-7) 2 = .ok t)
    ∧ compute_edge_max_num 3 = ((3 * (3 - 1) / 2 : ℕ) : ℤ)
    ∧ (∀ ne : ℤ, numEdgesRejected 3 ne = true
        ↔ (¬ (0 ≤ ne ∧ ne ≤ ((3 * (3 - 1) / 2 : ℕ) : ℤ))
            ∧ ne ≠ UNIFORM ∧ ne ≠ NORMAL)) :=
  invalid_parameter_guards (fun s : Unit => ((), s)) (fun _ gs => gs.map fun _ => ())
    (by intro i gs; simp) (fun _ => ()) (fun _ => ()) true (-7) 2 3 (by decide)

/-!
### The adjacency text format of nauty.write_graphs and read_adj_mat_file

Strings are lists of characters.  A graph is its adjacency matrix, a list of
rows of natural entries (0 or 1 for the graphs the program writes).
-/

/-- An adjacency matrix: the rows of integer entries that numpy hands around. -/
abbrev AdjMat := List (List ℕ)

/-- The decimal digit character of d. -/
def natDigitChar (d : ℕ) : Char := Char.ofNat (48 + d)

/-- The decimal representation of a natural number, as str produces it, by
fuel-bounded division by ten. -/
def natReprFuel : ℕ → ℕ → List Char
  | 0, _ => []
  | fuel + 1, n =>
    if n < 10 then [natDigitChar n]
    else natReprFuel fuel (n / 10) ++ [natDigitChar (n % 10)]

/-- The decimal representation of a natural number. -/
def natRepr (n : ℕ) : List Char := natReprFuel (n + 1) n

/-- The numeric value of a digit character, as int applies it digit by digit. -/
def digitVal (c : Char) : ℕ := c.toNat - 48

/-- The int() value of a digit string. -/
def parseNat (s : List Char) : ℕ := s.foldl (fun acc c => acc * 10 + digitVal c) 0

/-- The Python str.join: the pieces interleaved with the separator, nothing
appended after the last piece. -/
def joinSep {α : Type} (sep : List α) : List (List α) → List α
  | [] => []
  | [x] => x
  | x :: y :: rest => x ++ sep ++ joinSep sep (y :: rest)

/-- The concatenation of a list of strings, the join with an empty separator. -/
def concatAll {α : Type} : List (List α) → List α
  | [] => []
  | x :: rest => x ++ concatAll rest

/-- The loop of _helpers.read_text_file: Python readlines followed by rstrip of
the newline, accumulated character by character.  A final chunk is produced
only when nonempty, because a file ending in a newline yields no extra empty
line. -/
def pySplitLinesAux : List Char → List Char → List (List Char)
  | [], cur => if cur = [] then [] else [cur]
  | c :: rest, cur =>
    if c = '\n' then cur :: pySplitLinesAux rest []
    else pySplitLinesAux rest (cur ++ [c])

/-- The line list _helpers.read_text_file yields for a file content. -/
def pySplitLines (s : List Char) : List (List Char) := pySplitLinesAux s []

/-- One row of _helpers.graph_to_str (lines 35-37): the str images of the row
entries concatenated. -/
def rowChars (row : List ℕ) : List Char := concatAll (row.map natRepr)

/-- The rendering of _helpers.graph_to_str (lines 25-40) on a graph with at
least one node: the rows joined by newlines.  On a graph with no nodes the
source raises instead of rendering (nx.adjacency_matrix rejects an empty
graph); graph_to_str_exc below carries that error path, and the theorems that
use this total rendering restrict to graphs with at least one vertex. -/
def graph_to_str (g : AdjMat) : List Char := joinSep ['\n'] (g.map rowChars)

/-- _helpers.graph_to_str with its error path: nx.adjacency_matrix raises
NetworkXError on a graph with no nodes, before anything is rendered; otherwise
the total rendering applies. -/
def graph_to_str_exc (g : AdjMat) : Except PyErr (List Char) :=
  if g.length = 0 then .error .networkxError else .ok (graph_to_str g)

/-- The text one graph contributes in nauty.write_graphs line 113: the join by
newlines of the header n=<count>, the matrix text and the empty string. -/
def graphBlock (g : AdjMat) : List Char :=
  joinSep ['\n'] [['n', '='] ++ natRepr g.length, graph_to_str g, []]

/-- The full file content of nauty.write_graphs (lines 98-113) when every call
of graph_to_str returns: each graph in turn appends its block. -/
def write_graphs (gs : List AdjMat) : List Char := concatAll (gs.map graphBlock)

/-- nauty.write_graphs with the error path of graph_to_str: the loop renders one
graph after the other and the NetworkXError of a node-less graph propagates out
of the write, so no block of a graph at or past the failure is ever written. -/
def write_graphs_exc : List AdjMat → Except PyErr (List Char)
  | [] => .ok []
  | g :: rest =>
    match graph_to_str_exc g with
    | .error e => .error e
    | .ok s =>
      match write_graphs_exc rest with
      | .error e => .error e
      | .ok t => .ok (joinSep ['\n'] [['n', '='] ++ natRepr g.length, s, []] ++ t)

/-- The lines a graph with at least one vertex occupies in the written file:
its header line followed by its rows, with no separator line after them. -/
def blockLines (g : AdjMat) : List (List Char) :=
  (['n', '='] ++ natRepr g.length) :: g.map rowChars

/-- The line list the specification describes: the same blocks separated by a
blank line.  This definition follows the words of the specification, for
comparison against the line list the source actually produces. -/
def blankSeparated (gs : List AdjMat) : List (List Char) :=
  joinSep [([] : List Char)] (gs.map blockLines)

/-- The loop of nauty.read_adj_mat_file (lines 137-169): skip empty lines; a
line starting with n sets the vertex count, parsed from the line with its two
leading characters removed (partition at the first n, then drop one more), and
arms the row countdown without clearing previously collected rows; while the
countdown is positive each line is collected as a row and, when the countdown
reaches zero, the collected rows are parsed digit by digit into the matrix that
from_numpy_matrix receives, and the row buffer is cleared.  A header with count
zero never arms the countdown, so no graph is produced for it. -/
def readAdjMatGo : List (List Char) → ℕ → ℕ → List (List Char) → List AdjMat
  | [], _, _, _ => []
  | line :: rest, nv, iCreate, rows =>
    if line = [] then readAdjMatGo rest nv iCreate rows
    else if line.head? = some 'n' then
      readAdjMatGo rest (parseNat (line.drop 2)) (parseNat (line.drop 2)) rows
    else if 0 < iCreate then
      if iCreate = 1 then
        ((rows ++ [line]).map (List.map digitVal)) :: readAdjMatGo rest nv 0 []
      else readAdjMatGo rest nv (iCreate - 1) (rows ++ [line])
    else readAdjMatGo rest nv iCreate rows

/-- nauty.read_adj_mat_file (lines 125-169), from the line list of the file to
the adjacency matrices of the yielded graphs.  For the symmetric zero-one
matrices the program writes, from_numpy_matrix builds exactly the graph whose
adjacency matrix is the parsed matrix, so the graph is represented here by that
matrix. -/
def read_adj_mat_file (lines : List (List Char)) : List AdjMat :=
  readAdjMatGo lines 0 0 []

theorem natDigitChar_ne_newline (d : ℕ) (hd : d < 10) : natDigitChar d ≠ '\n' := by
  interval_cases d <;> decide

theorem digitVal_natDigitChar (d : ℕ) (hd : d < 10) : digitVal (natDigitChar d) = d := by
  interval_cases d <;> decide

theorem mem_natReprFuel (fuel : ℕ) : ∀ n c, c ∈ natReprFuel fuel n →
    ∃ d, d < 10 ∧ c = natDigitChar d := by
  induction fuel with
  | zero =>
    intro n c hc
    simp [natReprFuel] at hc
  | succ k ih =>
    intro n c hc
    rw [natReprFuel] at hc
    by_cases hn : n < 10
    · rw [if_pos hn] at hc
      simp at hc
      exact ⟨n, hn, hc⟩
    · rw [if_neg hn] at hc
      rcases List.mem_append.mp hc with h | h
      · exact ih (n / 10) c h
      · simp at h
        exact ⟨n % 10, Nat.mod_lt n (by omega), h⟩

theorem mem_natRepr (n : ℕ) (c : Char) (hc : c ∈ natRepr n) :
    ∃ d, d < 10 ∧ c = natDigitChar d :=
  mem_natReprFuel (n + 1) n c hc

theorem natRepr_ne_newline (n : ℕ) (c : Char) (hc : c ∈ natRepr n) : c ≠ '\n' := by
  obtain ⟨d, hd, rfl⟩ := mem_natRepr n c hc
  exact natDigitChar_ne_newline d hd

theorem parseNat_append_digit (a : List Char) (c : Char) :
    parseNat (a ++ [c]) = parseNat a * 10 + digitVal c := by
  unfold parseNat
  rw [List.foldl_append]
  rfl

theorem parseNat_natReprFuel (fuel : ℕ) : ∀ n, n ≤ fuel →
    parseNat (natReprFuel (fuel + 1) n) = n := by
  induction fuel with
  | zero =>
    intro n hn
    interval_cases n
    decide
  | succ k ih =>
    intro n hn
    rw [natReprFuel]
    by_cases h : n < 10
    · rw [if_pos h]
      unfold parseNat
      simp [digitVal_natDigitChar n h]
    · rw [if_neg h]
      have hk : n / 10 ≤ k := by omega
      rw [parseNat_append_digit, ih (n / 10) hk,
        digitVal_natDigitChar (n % 10) (Nat.mod_lt n (by omega))]
      omega

theorem parseNat_natRepr (n : ℕ) : parseNat (natRepr n) = n :=
  parseNat_natReprFuel n n (le_refl n)

theorem natRepr_single (x : ℕ) (hx : x < 10) : natRepr x = [natDigitChar x] := by
  unfold natRepr
  rw [natReprFuel, if_pos hx]

theorem rowChars_eq_map (row : List ℕ) (hrow : ∀ x ∈ row, x ≤ 1) :
    rowChars row = row.map natDigitChar := by
  induction row with
  | nil => rfl
  | cons x rest ih =>
    have hx : x < 10 := by
      have := hrow x (List.mem_cons_self x rest)
      omega
    unfold rowChars at *
    simp only [List.map_cons, concatAll]
    rw [natRepr_single x hx, ih fun y hy => hrow y (List.mem_cons_of_mem x hy)]
    rfl

theorem rowChars_length (row : List ℕ) (hrow : ∀ x ∈ row, x ≤ 1) :
    (rowChars row).length = row.length := by
  rw [rowChars_eq_map row hrow, List.length_map]

theorem rowChars_binary (row : List ℕ) (hrow : ∀ x ∈ row, x ≤ 1) :
    ∀ c ∈ rowChars row, c = '0' ∨ c = '1' := by
  rw [rowChars_eq_map row hrow]
  intro c hc
  rw [List.mem_map] at hc
  obtain ⟨x, hx, rfl⟩ := hc
  have := hrow x hx
  interval_cases x
  · left
    decide
  · right
    decide

theorem rowChars_map_digitVal (row : List ℕ) (hrow : ∀ x ∈ row, x ≤ 1) :
    (rowChars row).map digitVal = row := by
  rw [rowChars_eq_map row hrow, List.map_map]
  have : ∀ x ∈ row, (digitVal ∘ natDigitChar) x = x := by
    intro x hx
    have := hrow x hx
    exact digitVal_natDigitChar x (by omega)
  calc row.map (digitVal ∘ natDigitChar) = row.map id := List.map_congr_left this
    _ = row := List.map_id row

theorem rowChars_ne_newline (row : List ℕ) (c : Char) (hc : c ∈ rowChars row) :
    c ≠ '\n' := by
  unfold rowChars at hc
  induction row with
  | nil => simp [concatAll] at hc
  | cons x rest ih =>
    simp only [List.map_cons, concatAll] at hc
    rcases List.mem_append.mp hc with h | h
    · exact natRepr_ne_newline x c h
    · exact ih h

theorem pySplitLinesAux_newline_free (b : List Char) :
    ∀ (a cur : List Char), (∀ c ∈ a, c ≠ '\n') →
      pySplitLinesAux (a ++ '\n' :: b) cur = (cur ++ a) :: pySplitLinesAux b [] := by
  intro a
  induction a with
  | nil =>
    intro cur _
    rw [List.nil_append, pySplitLinesAux, if_pos rfl, List.append_nil]
  | cons c rest ih =>
    intro cur hfree
    rw [List.cons_append, pySplitLinesAux,
      if_neg (hfree c (List.mem_cons_self c rest)),
      ih (cur ++ [c]) fun x hx => hfree x (List.mem_cons_of_mem c hx)]
    simp

theorem joinSep_single {α : Type} (sep : List α) (x : List α) : joinSep sep [x] = x := rfl

theorem joinSep_cons₂ {α : Type} (sep : List α) (x y : List α) (rest : List (List α)) :
    joinSep sep (x :: y :: rest) = x ++ sep ++ joinSep sep (y :: rest) := rfl

theorem pySplitLinesAux_join (b : List Char) :
    ∀ rs : List (List Char), rs ≠ [] → (∀ r ∈ rs, ∀ c ∈ r, c ≠ '\n') →
      pySplitLinesAux (joinSep ['\n'] rs ++ '\n' :: b) []
        = rs ++ pySplitLinesAux b [] := by
  intro rs
  induction rs with
  | nil =>
    intro h _
    exact absurd rfl h
  | cons r rest ih =>
    intro _ hfree
    rcases rest with _ | ⟨r2, rest2⟩
    · rw [show joinSep ['\n'] [r] = r from rfl,
        pySplitLinesAux_newline_free b r [] (hfree r (List.mem_cons_self r []))]
      simp
    · rw [joinSep_cons₂, List.append_assoc, List.append_assoc, List.singleton_append,
        pySplitLinesAux_newline_free (joinSep ['\n'] (r2 :: rest2) ++ '\n' :: b) r []
          (hfree r (List.mem_cons_self r _)),
        ih (by simp) fun q hq => hfree q (List.mem_cons_of_mem r hq)]
      simp

theorem graphBlock_eq (g : AdjMat) (hg : g ≠ []) :
    graphBlock g = joinSep ['\n'] (blockLines g) ++ ['\n'] := by
  rcases g with _ | ⟨row, rest⟩
  · exact absurd rfl hg
  · unfold graphBlock graph_to_str blockLines
    simp only [List.map_cons]
    rw [joinSep_cons₂, joinSep_cons₂, joinSep_single, joinSep_cons₂]
    simp

theorem blockLines_newline_free (g : AdjMat) :
    ∀ r ∈ blockLines g, ∀ c ∈ r, c ≠ '\n' := by
  intro r hr c hc
  unfold blockLines at hr
  rcases List.mem_cons.mp hr with h | h
  · subst h
    rcases List.mem_append.mp hc with h2 | h2
    · rcases List.mem_cons.mp h2 with h3 | h3
      · subst h3
        decide
      · rcases List.mem_cons.mp h3 with h4 | h4
        · subst h4
          decide
        · simp at h4
    · exact natRepr_ne_newline g.length c h2
  · rw [List.mem_map] at h
    obtain ⟨row, _, rfl⟩ := h
    exact rowChars_ne_newline row c hc

theorem splitLines_write (gs : List AdjMat) (hne : ∀ g ∈ gs, g ≠ []) :
    pySplitLines (write_graphs gs) = concatAll (gs.map blockLines) := by
  induction gs with
  | nil => rfl
  | cons g rest ih =>
    unfold write_graphs pySplitLines at *
    simp only [List.map_cons, concatAll]
    rw [graphBlock_eq g (hne g (List.mem_cons_self g rest)), List.append_assoc,
      List.singleton_append,
      pySplitLinesAux_join (concatAll (rest.map graphBlock)) (blockLines g)
        (by unfold blockLines; simp) (blockLines_newline_free g),
      ih fun q hq => hne q (List.mem_cons_of_mem g hq)]

theorem readAdjMatGo_rows (b : List (List Char)) (nv : ℕ) :
    ∀ (rows : List (List Char)) (acc : List (List Char)), rows ≠ [] →
      (∀ r ∈ rows, r ≠ [] ∧ ¬ r.head? = some 'n') →
      readAdjMatGo (rows ++ b) nv rows.length acc
        = ((acc ++ rows).map (List.map digitVal)) :: readAdjMatGo b nv 0 [] := by
  intro rows
  induction rows with
  | nil =>
    intro acc h _
    exact absurd rfl h
  | cons r rest ih =>
    intro acc _ hrows
    obtain ⟨hne, hnoth⟩ := hrows r (List.mem_cons_self r rest)
    rw [List.cons_append, readAdjMatGo, if_neg hne, if_neg hnoth,
      if_pos (by simp)]
    rcases rest with _ | ⟨r2, rest2⟩
    · simp
    · rw [if_neg (by simp only [List.length_cons]; omega)]
      have h2 := ih (acc ++ [r]) (by simp)
        fun q hq => hrows q (List.mem_cons_of_mem r hq)
      simp only [List.length_cons, List.cons_append] at h2 ⊢
      rw [Nat.add_sub_cancel, h2]
      simp

theorem readAdjMatGo_blocks :
    ∀ (gs : List AdjMat) (nv : ℕ),
      (∀ g ∈ gs, 1 ≤ g.length ∧ ∀ row ∈ g, row.length = g.length ∧ ∀ x ∈ row, x ≤ 1) →
      readAdjMatGo (concatAll (gs.map blockLines)) nv 0 [] = gs := by
  intro gs
  induction gs with
  | nil =>
    intro nv _
    rfl
  | cons g rest ih =>
    intro nv hwf
    obtain ⟨hlen, hrows⟩ := hwf g (List.mem_cons_self g rest)
    simp only [List.map_cons, concatAll]
    rw [show blockLines g = (['n', '='] ++ natRepr g.length) :: g.map rowChars from rfl,
      List.cons_append, readAdjMatGo, if_neg (by simp), if_pos (by simp)]
    have hdrop : (((['n', '='] ++ natRepr g.length) : List Char).drop 2) = natRepr g.length := rfl
    rw [hdrop, parseNat_natRepr]
    have hrowsOk : ∀ r ∈ g.map rowChars, r ≠ [] ∧ ¬ r.head? = some 'n' := by
      intro r hr
      rw [List.mem_map] at hr
      obtain ⟨row, hrow, rfl⟩ := hr
      obtain ⟨hrl, hrx⟩ := hrows row hrow
      have hlr : (rowChars row).length = row.length := rowChars_length row hrx
      constructor
      · intro hempty
        rw [hempty] at hlr
        simp at hlr
        omega
      · intro hhead
        have hmem : 'n' ∈ rowChars row := by
          rcases hq : rowChars row with _ | ⟨c, cs⟩
          · rw [hq] at hhead
            simp at hhead
          · rw [hq] at hhead
            simp at hhead
            rw [hhead]
            exact List.mem_cons_self _ _
        rcases rowChars_binary row hrx 'n' hmem with h | h <;> simp at h
    have hmaplen : (g.map rowChars).length = g.length := List.length_map g rowChars
    have hne2 : g.map rowChars ≠ [] := by
      intro h
      rw [h] at hmaplen
      simp at hmaplen
      omega
    rw [← hmaplen,
      readAdjMatGo_rows (concatAll (rest.map blockLines)) (g.map rowChars).length
        (g.map rowChars) [] hne2 hrowsOk]
    rw [ih (g.map rowChars).length fun q hq => hwf q (List.mem_cons_of_mem g hq)]
    simp only [List.nil_append, List.map_map]
    have : g.map (List.map digitVal ∘ rowChars) = g.map id := by
      refine List.map_congr_left ?_
      intro row hrow
      exact rowChars_map_digitVal row (hrows row hrow).2
    rw [this, List.map_id]

/-- C9 counterexample.  Two one-vertex graphs: the written file splits into the
four lines n=1, 0, n=1, 0 with the two blocks adjacent, not into the five
blank-separated lines the specification describes. -/
theorem no_blank_separator :
    pySplitLines (write_graphs [[[0]], [[0]]])
        = [['n', '=', '1'], ['0'], ['n', '=', '1'], ['0']]
    ∧ blankSeparated [[[0]], [[0]]]
        = [['n', '=', '1'], ['0'], [], ['n', '=', '1'], ['0']]
    ∧ pySplitLines (write_graphs [[[0]], [[0]]]) ≠ blankSeparated [[[0]], [[0]]] := by
  refine ⟨by decide, by decide, by decide⟩

/-- C9 amended.  For graphs with at least one vertex and square zero-one
matrices, the written file splits into the block lines of the graphs in order
with consecutive blocks ADJACENT (the source writes no blank separator line,
each block ending in exactly one newline), and each block is the header line
n=<count> followed by exactly <count> rows of exactly <count> characters, each
either the digit zero or the digit one. -/
theorem adjacency_format (gs : List AdjMat)
    (hwf : ∀ g ∈ gs, 1 ≤ g.length ∧ ∀ row ∈ g, row.length = g.length ∧ ∀ x ∈ row, x ≤ 1) :
    pySplitLines (write_graphs gs) = concatAll (gs.map blockLines)
    ∧ ∀ g ∈ gs, blockLines g = (['n', '='] ++ natRepr g.length) :: g.map rowChars
        ∧ parseNat (natRepr g.length) = g.length
        ∧ (g.map rowChars).length = g.length
        ∧ ∀ r ∈ g.map rowChars, r.length = g.length ∧ ∀ c ∈ r, c = '0' ∨ c = '1' := by
  constructor
  · refine splitLines_write gs ?_
    intro g hg h
    have := (hwf g hg).1
    rw [h] at this
    simp at this
  · intro g hg
    obtain ⟨hlen, hrows⟩ := hwf g hg
    refine ⟨rfl, parseNat_natRepr g.length, List.length_map g rowChars, ?_⟩
    intro r hr
    rw [List.mem_map] at hr
    obtain ⟨row, hrow, rfl⟩ := hr
    obtain ⟨hrl, hrx⟩ := hrows row hrow
    exact ⟨by rw [rowChars_length row hrx, hrl], rowChars_binary row hrx⟩

/-- Witness for the adjacency format at one two-vertex graph with one edge. -/
theorem adjacency_format_witness :
    pySplitLines (write_graphs [[[0, 1], [1, 0]]])
        = concatAll ([[[0, 1], [1, 0]]].map blockLines)
    ∧ ∀ g ∈ [[[0, 1], [1, 0]]],
        blockLines g = (['n', '='] ++ natRepr g.length) :: g.map rowChars
        ∧ parseNat (natRepr g.length) = g.length
        ∧ (g.map rowChars).length = g.length
        ∧ ∀ r ∈ g.map rowChars, r.length = g.length ∧ ∀ c ∈ r, c = '0' ∨ c = '1' :=
  adjacency_format [[[0, 1], [1, 0]]] (by decide)

/-- C10 counterexample.  At a list holding one zero-vertex graph the write
itself fails: nx.adjacency_matrix raises NetworkXError on a graph with no
nodes, inside graph_to_str, before any file content is produced, so
write_graphs never returns a file to parse and the claimed round trip over
EVERY finite list of simple undirected graphs has no run to succeed on. -/
theorem writer_raises_on_empty_graph :
    write_graphs_exc [([] : AdjMat)] = .error .networkxError
    ∧ ∀ out : List Char, write_graphs_exc [([] : AdjMat)] ≠ .ok out := by
  refine ⟨rfl, ?_⟩
  intro out h
  rw [show write_graphs_exc [([] : AdjMat)] = .error .networkxError from rfl] at h
  exact Except.noConfusion h

/-- The writer with its error path succeeds exactly as the total writer when
every graph has at least one vertex. -/
theorem write_graphs_exc_ok (gs : List AdjMat) (h : ∀ g ∈ gs, 1 ≤ g.length) :
    write_graphs_exc gs = .ok (write_graphs gs) := by
  induction gs with
  | nil => rfl
  | cons g rest ih =>
    rw [write_graphs_exc]
    have h1 : graph_to_str_exc g = .ok (graph_to_str g) := by
      unfold graph_to_str_exc
      rw [if_neg (by have := h g (List.mem_cons_self g rest); omega)]
    rw [h1, ih fun q hq => h q (List.mem_cons_of_mem g hq)]
    rfl

/-- C10 amended.  For graphs with at least one vertex whose adjacency matrices
are square and zero-one, the write succeeds (the NetworkXError path of
graph_to_str is never taken) and reading back the written file yields exactly
the input matrices, in order and in full; a zero-vertex graph instead makes the
write raise before producing anything.  The symmetry hypothesis is the
condition under which from_numpy_matrix reproduces the written matrix as the
adjacency matrix of the graph it builds, matching the reader model. -/
theorem writeRead_roundtrip (gs : List AdjMat)
    (hwf : ∀ g ∈ gs, 1 ≤ g.length ∧ ∀ row ∈ g, row.length = g.length ∧ ∀ x ∈ row, x ≤ 1)
    (_hsym : ∀ g ∈ gs, ∀ i, i < g.length → ∀ j, j < g.length →
        (g.getD i []).getD j 0 = (g.getD j []).getD i 0) :
    write_graphs_exc gs = .ok (write_graphs gs)
    ∧ read_adj_mat_file (pySplitLines (write_graphs gs)) = gs := by
  refine ⟨write_graphs_exc_ok gs fun g hg => (hwf g hg).1, ?_⟩
  unfold read_adj_mat_file
  rw [splitLines_write gs ?hne]
  case hne =>
    intro g hg h
    have := (hwf g hg).1
    rw [h] at this
    simp at this
  exact readAdjMatGo_blocks gs 0 hwf

/-- Witness for the round trip at one two-vertex graph with one edge. -/
theorem writeRead_roundtrip_witness :
    write_graphs_exc [[[0, 1], [1, 0]]] = .ok (write_graphs [[[0, 1], [1, 0]]])
    ∧ read_adj_mat_file (pySplitLines (write_graphs [[[0, 1], [1, 0]]]))
      = [[[0, 1], [1, 0]]] :=
  writeRead_roundtrip [[[0, 1], [1, 0]]] (by decide) (by decide)

/-!
### The backend invocations of nauty.canonically_label

The chain of canonically_label (nauty.py:15-45) writes the graphs, runs amtog
through subprocess.call (line 181), runs labelg through subprocess.call
(line 242) and reads the labelg output file.  subprocess.call raises
FileNotFoundError when the executable is missing and otherwise RETURNS the exit
status; both call sites discard that return value.  Reading the output file
raises FileNotFoundError when the tools never created it and otherwise yields
its lines, whatever the exit statuses were.
-/

/-- The backend as the chain observes it: whether each executable resolves, the
exit status each invocation would return for the written graphs, and the
content of the labelg output file after both invocations, none when no file is
left to open. -/
structure NautyEnv (G K : Type) : Type where
  amtogPresent : Bool
  labelgPresent : Bool
  amtogExit : List G → ℤ
  labelgExit : List G → ℤ
  outFile : List G → Option (List K)

/-- nauty.canonically_label (lines 15-45) over a backend environment: a missing
executable raises before anything is read; a present pair of executables is
invoked, their exit statuses are discarded by the call sites, and the function
returns whatever lines the output file holds, or raises only when no output
file exists at all. -/
def canonically_label {G K : Type} (env : NautyEnv G K) (gs : List G) :
    Except PyErr (List K) :=
  if env.amtogPresent = false then .error .execNotFound
  else if env.labelgPresent = false then .error .execNotFound
  else match env.outFile gs with
    | none => .error .fileNotFound
    | some ks => .ok ks

theorem assignCount_one : assignCount 1 1 0 = 1 := by
  have h1 : pyIntDiv 1 1 = 1 := by
    rw [show (1 : ℤ) = ((1 : ℕ) : ℤ) by norm_num, pyIntDiv_ofNat,
      pyIntDivNat_intValue 1 1 1 (by norm_num) (by norm_num) (by norm_num) (by norm_num)]
  unfold assignCount
  rw [if_pos rfl, h1]
  omega

theorem workerChunks_one : workerChunks 1 = [1] := by
  unfold workerChunks CHUNCK_SIZE
  decide

/-- C6 counterexample.  A backend whose labelg invocation exits with status 1
after truncating its output file to empty: both executables resolve, the exit
status is discarded, canonically_label returns the empty key list without any
error, and compute_graph_counts silently returns an EMPTY table for a run that
generated one graph, instead of failing. -/
theorem nonzero_exit_silent_empty_table :
    canonically_label
        ⟨true, true, fun _ => 0, fun _ => 1, fun _ => some []⟩ [()]
      = .ok ([] : List ℕ)
    ∧ computeGraphCounts (fun s : Unit => ((), s))
        (fun _ gs => canonically_label
          ⟨true, true, fun _ => 0, fun _ => 1, fun _ => some ([] : List ℕ)⟩ gs)
        (fun _ => ()) (fun _ => ()) true 1 1 = .ok []
    ∧ (1 : ℤ) ≠ 0 := by
  refine ⟨rfl, ?_, by norm_num⟩
  unfold computeGraphCounts
  rw [if_neg (by norm_num), show List.range (1 : ℤ).toNat = [0] from rfl, gatherWorkers]
  unfold workerRun
  rw [assignCount_one, workerChunks_one]
  rfl

/-- C6 amended.  What failure handling the chain actually has: a missing amtog
or labelg executable raises FileNotFoundError, which propagates out of
compute_graph_counts; a missing output file raises FileNotFoundError; but the
exit statuses of both invocations are discarded, so replacing them by ANY other
statuses never changes the result, and a failing tool that still leaves an
output file makes the call succeed silently on whatever the file holds.  The
propagation conclusion needs the first worker to schedule at least one chunk,
since a worker with no chunks never invokes the backend. -/
theorem backend_failure_propagation {S G K : Type} [DecidableEq K]
    (env : NautyEnv G K) (gen : S → G × S) (seedOf initS : ℕ → S) (isDet : Bool)
    (n p : ℤ) (gs : List G) (hp : 1 ≤ p)
    (hchunks : workerChunks (assignCount n p 0) ≠ []) :
    (env.amtogPresent = false → canonically_label env gs = .error .execNotFound)
    ∧ (env.labelgPresent = false → canonically_label env gs = .error .execNotFound)
    ∧ (env.amtogPresent = true → env.labelgPresent = true → env.outFile gs = none →
        canonically_label env gs = .error .fileNotFound)
    ∧ (∀ e1 e2 : List G → ℤ,
        canonically_label
          ⟨env.amtogPresent, env.labelgPresent, e1, e2, env.outFile⟩ gs
          = canonically_label env gs)
    ∧ ((∀ l : List G, ∃ e, canonically_label env l = .error e) →
        ∃ e, computeGraphCounts gen (fun _ l => canonically_label env l)
          seedOf initS isDet n p = .error e) := by
  refine ⟨?_, ?_, ?_, ?_, ?_⟩
  · intro h
    unfold canonically_label
    rw [h]
    rfl
  · intro h
    unfold canonically_label
    rw [h]
    rcases henv : env.amtogPresent with _ | _ <;> rfl
  · intro h1 h2 h3
    unfold canonically_label
    rw [h1, h2, h3]
    rfl
  · intro e1 e2
    unfold canonically_label
    rfl
  · intro hfail
    obtain ⟨c, cs, hcc⟩ := List.exists_cons_of_ne_nil hchunks
    obtain ⟨k, hk⟩ : ∃ k, p.toNat = k + 1 := ⟨p.toNat - 1, by omega⟩
    unfold computeGraphCounts
    rw [if_neg (by omega), hk, List.range_succ_eq_map]
    rw [gatherWorkers]
    unfold workerRun
    rw [hcc, workerLoop]
    obtain ⟨e, he⟩ := hfail (generateGraphs gen c.toNat
      (if isDet then seedOf 0 else initS 0)).1
    refine ⟨e, ?_⟩
    rw [show (fun (x : ℕ) (l : List G) => canonically_label env l) 0
        (generateGraphs gen c.toNat (if isDet = true then seedOf 0 else initS 0)).1
        = Except.error e from he]

theorem assignCount_five : assignCount 5 1 0 = 5 := by
  have h1 : pyIntDiv 5 1 = 5 := by
    rw [show (5 : ℤ) = ((5 : ℕ) : ℤ) by norm_num,
      show (1 : ℤ) = ((1 : ℕ) : ℤ) by norm_num, pyIntDiv_ofNat,
      pyIntDivNat_intValue 5 1 5 (by norm_num) (by norm_num) (by norm_num) (by norm_num)]
  unfold assignCount
  rw [if_pos rfl, h1]
  omega

theorem workerChunks_five_ne_nil : workerChunks (assignCount 5 1 0) ≠ [] := by
  rw [assignCount_five]
  unfold workerChunks CHUNCK_SIZE
  decide

/-- Witness for the backend failure propagation at a concrete environment with
both tools present, one worker and five requested graphs. -/
theorem backend_failure_propagation_witness :
    (NautyEnv.amtogPresent
        (⟨true, true, fun _ => 0, fun _ => 0, fun _ => none⟩ : NautyEnv Unit ℕ) = false →
      canonically_label
        (⟨true, true, fun _ => 0, fun _ => 0, fun _ => none⟩ : NautyEnv Unit ℕ) [()]
        = .error .execNotFound)
    ∧ (NautyEnv.labelgPresent
        (⟨true, true, fun _ => 0, fun _ => 0, fun _ => none⟩ : NautyEnv Unit ℕ) = false →
      canonically_label
        (⟨true, true, fun _ => 0, fun _ => 0, fun _ => none⟩ : NautyEnv Unit ℕ) [()]
        = .error .execNotFound)
    ∧ (NautyEnv.amtogPresent
        (⟨true, true, fun _ => 0, fun _ => 0, fun _ => none⟩ : NautyEnv Unit ℕ) = true →
      NautyEnv.labelgPresent
        (⟨true, true, fun _ => 0, fun _ => 0, fun _ => none⟩ : NautyEnv Unit ℕ) = true →
      NautyEnv.outFile
        (⟨true, true, fun _ => 0, fun _ => 0, fun _ => none⟩ : NautyEnv Unit ℕ) [()] = none →
      canonically_label
        (⟨true, true, fun _ => 0, fun _ => 0, fun _ => none⟩ : NautyEnv Unit ℕ) [()]
        = .error .fileNotFound)
    ∧ (∀ e1 e2 : List Unit → ℤ,
        canonically_label
          (⟨NautyEnv.amtogPresent
              (⟨true, true, fun _ => 0, fun _ => 0, fun _ => none⟩ : NautyEnv Unit ℕ),
            NautyEnv.labelgPresent
              (⟨true, true, fun _ => 0, fun _ => 0, fun _ => none⟩ : NautyEnv Unit ℕ),
            e1, e2,
            NautyEnv.outFile
              (⟨true, true, fun _ => 0, fun _ => 0, fun _ => none⟩ : NautyEnv Unit ℕ)⟩
            : NautyEnv Unit ℕ) [()]
          = canonically_label
            (⟨true, true, fun _ => 0, fun _ => 0, fun _ => none⟩ : NautyEnv Unit ℕ) [()])
    ∧ ((∀ l : List Unit, ∃ e, canonically_label
          (⟨true, true, fun _ => 0, fun _ => 0, fun _ => none⟩ : NautyEnv Unit ℕ) l
          = .error e) →
        ∃ e, computeGraphCounts (fun s : Unit => ((), s))
          (fun _ l => canonically_label
            (⟨true, true, fun _ => 0, fun _ => 0, fun _ => none⟩ : NautyEnv Unit ℕ) l)
          (fun _ => ()) (fun _ => ()) true 5 1 = .error e) :=
  backend_failure_propagation
    (⟨true, true, fun _ => 0, fun _ => 0, fun _ => none⟩ : NautyEnv Unit ℕ)
    (fun s : Unit => ((), s)) (fun _ => ()) (fun _ => ()) true 5 1 [()]
    (by decide) workerChunks_five_ne_nil

end GraphGen
